import Mathlib

/-!
# MPEG-4 atom reader and tag decoder (`pkg/parser/m4a.go`)

A shallow embedding of the `.m4a` parser. Conventions of the model:

* a byte is a `Fin 256`; a Go `string` is its sequence of bytes (`GoString`);
* Go `int` and `int64` are modelled by `Int`; the platform is a 64-bit one
  (`strconv.IntSize = 64`), and `int64` additions are wrapped by `int64`;
* a Go slice is a `Slice`: its `len` visible bytes and the bytes of the backing
  array that lie between `len` and `cap` (a slice expression `s[lo:hi]` is
  checked against `cap`, `s[lo:]` and an index against `len`);
* a function that can panic at run time or loop returns a `Run`: `ret a` when it
  returns `a`, `panicked` on a run-time panic (slice bounds or index out of
  range), `unfinished` when a loop has used up the iteration budget the model
  gives it without returning;
* a function that returns `(value, error)` returns an `Except`; `M4A`, which
  returns a record next to its error, returns the pair;
* the file system `M4A` reads from is a map from paths to files.
-/

namespace M4A

deriving instance DecidableEq for Except

/-! ## Outcomes of a call -/

/-- The outcome of running a Go function. -/
inductive Run (α : Type) where
  | ret (a : α)
  | panicked
  | unfinished
  deriving DecidableEq, Repr

/-- Sequencing: a panic or an exhausted budget ends the computation. -/
def Run.bind {α β : Type} (x : Run α) (k : α → Run β) : Run β :=
  match x with
  | .ret a => k a
  | .panicked => .panicked
  | .unfinished => .unfinished

instance : Monad Run where
  pure := Run.ret
  bind := Run.bind

/-! ## Bytes, strings and slices -/

abbrev Byte := Fin 256

/-- A Go string: an immutable sequence of bytes. -/
abbrev GoString := List Byte

/-- The byte of an ASCII character, as in a Go string literal. -/
def ch (c : Char) : Byte := Fin.ofNat c.toNat

/-- The bytes of an ASCII string literal. -/
def str (s : String) : GoString := s.toList.map ch

/-- A Go `[]byte`: `elems` are the `len` bytes that can be indexed, `spare` the
bytes of the backing array from `len` up to `cap`. -/
structure Slice where
  elems : List Byte
  spare : List Byte
  deriving DecidableEq, Repr

instance : Inhabited Slice := ⟨⟨[], []⟩⟩

namespace Slice

/-- The nil slice. -/
def nil : Slice := ⟨[], []⟩

def len (s : Slice) : Nat := s.elems.length

def cap (s : Slice) : Nat := s.elems.length + s.spare.length

/-- The slice expression `s[lo:]`: panics unless `0 ≤ lo ≤ len(s)`. -/
def sliceFrom (s : Slice) (lo : Int) : Run Slice :=
  if 0 ≤ lo ∧ lo ≤ s.len then .ret ⟨s.elems.drop lo.toNat, s.spare⟩ else .panicked

/-- The slice expression `s[lo:hi]`: panics unless `0 ≤ lo ≤ hi ≤ cap(s)`. -/
def slice (s : Slice) (lo hi : Int) : Run Slice :=
  if 0 ≤ lo ∧ lo ≤ hi ∧ hi ≤ s.cap then
    .ret ⟨((s.elems ++ s.spare).take hi.toNat).drop lo.toNat,
      (s.elems ++ s.spare).drop hi.toNat⟩
  else .panicked

/-- The conversion `string(s)`. -/
def toString (s : Slice) : GoString := s.elems

end Slice

/-- The result of `make([]byte, n)` once a read has filled it with `bs`. -/
def Slice.ofBytes (bs : List Byte) : Slice := ⟨bs, []⟩

/-! ## Machine integers -/

/-- Wrap-around of a mathematical integer into the range of Go's `int64`. -/
def int64 (x : Int) : Int := (x + 2 ^ 63) % 2 ^ 64 - 2 ^ 63

/-- Big-endian value of a byte sequence. -/
def beValue : List Byte → Nat
  | [] => 0
  | b :: bs => b.val * 256 ^ bs.length + beValue bs

/-- The 4-byte big-endian encoding of `n` (its low 32 bits). -/
def be32 (n : Nat) : List Byte :=
  [Fin.ofNat (n / 2 ^ 24), Fin.ofNat (n / 2 ^ 16), Fin.ofNat (n / 2 ^ 8), Fin.ofNat n]

/-! ## `encoding/hex` and `strconv` -/

/-- The table `hextable` of `encoding/hex`. -/
def hextable : List Byte := str "0123456789abcdef"

/-- The function `hex.EncodeToString`: two lower-case hexadecimal digits per byte. -/
def hexEncodeToString : List Byte → GoString
  | [] => []
  | b :: bs =>
    hextable.getD (b.val / 16) 0 :: hextable.getD (b.val % 16) 0 :: hexEncodeToString bs

/-- The errors of `strconv`. -/
inductive NumError where
  | ErrSyntax
  | ErrRange
  deriving DecidableEq, Repr

/-- The value of one digit character in `strconv.ParseUint`, before the check
against the base; `none` is the `default` branch of its `switch`. -/
def digitVal (c : Byte) : Option Nat :=
  if (ch '0').val ≤ c.val ∧ c.val ≤ (ch '9').val then some (c.val - (ch '0').val)
  else
    let l := if (ch 'A').val ≤ c.val ∧ c.val ≤ (ch 'Z').val then c.val + 32 else c.val
    if (ch 'a').val ≤ l ∧ l ≤ (ch 'z').val then some (l - (ch 'a').val + 10)
    else none

/-- The digit loop of `strconv.ParseUint(s, 16, 0)`, from accumulator `n`:
`cutoff = maxUint64/16 + 1`, `maxVal = 1<<64 - 1`, arithmetic in `uint64`. -/
def parseUintLoop : GoString → Nat → Except NumError Nat
  | [], n => .ok n
  | c :: cs, n =>
    match digitVal c with
    | none => .error .ErrSyntax
    | some d =>
      if d ≥ 16 then .error .ErrSyntax
      else if n ≥ (2 ^ 64 - 1) / 16 + 1 then .error .ErrRange
      else
        let n16 := (n * 16) % 2 ^ 64
        let n1 := (n16 + d) % 2 ^ 64
        if n1 < n16 ∨ n1 > 2 ^ 64 - 1 then .error .ErrRange
        else parseUintLoop cs n1

/-- The function `strconv.ParseUint(s, 16, 0)`. -/
def ParseUint16 (s : GoString) : Except NumError Nat :=
  if s = [] then .error .ErrSyntax else parseUintLoop s 0

/-- The function `strconv.ParseInt(s, 16, 0)` on a 64-bit platform. The value Go
returns next to a non-nil error is dropped: `parseSize` does not use it. -/
def ParseInt16 (s : GoString) : Except NumError Int :=
  if s = [] then .error .ErrSyntax
  else
    let neg := s.head? = some (ch '-')
    let s1 := if s.head? = some (ch '+') ∨ s.head? = some (ch '-') then s.tail else s
    match ParseUint16 s1 with
    | .error e => .error e
    | .ok un =>
      let cutoff : Nat := 2 ^ 63
      if ¬ neg ∧ un ≥ cutoff then .error .ErrRange
      else if neg ∧ un > cutoff then .error .ErrRange
      else .ok (if neg then - int64 (un : Int) else int64 (un : Int))

/-! ## Atoms -/

/-- The struct `Atom`. The field `Type` of the source is `Typ` here. -/
structure Atom where
  Start : Int
  End : Int
  Size : Int
  Typ : GoString
  Contents : Slice
  deriving DecidableEq, Repr

/-- The zero value `Atom{}`. -/
instance : Inhabited Atom := ⟨⟨0, 0, 0, [], Slice.nil⟩⟩

def SizeLen : Nat := 4

def TypeLen : Nat := 4

/-- The function `parseSize`: hex-encode the buffer, then parse it in base 16. -/
def parseSize (buffer : List Byte) : Except NumError Int :=
  ParseInt16 (hexEncodeToString buffer)

/-- The function `parseType`. -/
def parseType (buffer : List Byte) : GoString := buffer

/-! ## The file -/

/-- The bytes of an open `os.File`. A file offset is an `int64`, so the size of a
file is below `2 ^ 63`. -/
structure File where
  bytes : List Byte
  size_lt : bytes.length < 2 ^ 63

/-- The errors of `(*os.File).ReadAt`. -/
inductive ReadError where
  | negativeOffset
  | EOF
  deriving DecidableEq, Repr

/-- The method `f.ReadAt(b, off)` for a buffer `b` of `n` bytes: the `n` bytes
at `off`, or an error when the offset is negative or fewer than `n` bytes are
there. A read into an empty buffer succeeds at any non-negative offset. -/
def File.ReadAt (f : File) (n : Nat) (off : Int) : Except ReadError (List Byte) :=
  if off < 0 then .error .negativeOffset
  else if n = 0 then .ok []
  else if off.toNat + n ≤ f.bytes.length then .ok ((f.bytes.drop off.toNat).take n)
  else .error .EOF

/-- The errors built by `fmt.Errorf` in the atom reader: the message template
and its arguments (the file name and the text of the cause are left out). -/
inductive Error where
  | ReadAtomAtError (field : GoString) (off : Int)
  | ReadSiblingEror (typ : GoString) (cause : Error)
  | ReadSiblingWithTypeError (typ target : GoString) (cause : Error)
  deriving DecidableEq, Repr

/-- The function `readAtomAt`. `make([]byte, size)` would panic on a negative
`size`; `parseSize` never returns one (`parseSize_nonneg`). -/
def readAtomAt (f : File) (off : Int) : Except Error Atom :=
  match f.ReadAt SizeLen off with
  | .error _ => .error (.ReadAtomAtError (str "size") off)
  | .ok b =>
    match parseSize b with
    | .error _ => .error (.ReadAtomAtError (str "size") off)
    | .ok size =>
      match f.ReadAt SizeLen (int64 (off + SizeLen)) with
      | .error _ => .error (.ReadAtomAtError (str "type") off)
      | .ok b =>
        let typ := parseType b
        match f.ReadAt size.toNat off with
        | .error _ => .error (.ReadAtomAtError (str "content") off)
        | .ok b =>
          .ok { Start := off, End := int64 (off + size), Size := size, Typ := typ,
                Contents := Slice.ofBytes b }

/-- The function `readSibling`. -/
def readSibling (f : File) (a : Atom) : Except Error Atom :=
  match readAtomAt f a.End with
  | .error err => .error (.ReadSiblingEror a.Typ err)
  | .ok sib => .ok sib

/-- The function `readSiblingWithType`; its `for` loop has no bound of its own,
`fuel` is the number of iterations the model allows. -/
def readSiblingWithType (f : File) : Nat → Atom → GoString → Run (Except Error Atom)
  | 0, _, _ => .unfinished
  | fuel + 1, a, typ =>
    match readSibling f a with
    | .error err => .ret (.error (.ReadSiblingWithTypeError a.Typ typ err))
    | .ok sib =>
      if sib.Typ = typ then .ret (.ok sib)
      else readSiblingWithType f fuel sib typ

/-! ## Child search -/

/-- The function `strings.HasPrefix`. -/
def startsWith : GoString → GoString → Bool
  | _, [] => true
  | [], _ :: _ => false
  | c :: s, d :: p => c = d && startsWith s p

/-- The function `strings.Contains`. -/
def Contains : GoString → GoString → Bool
  | [], substr => substr = []
  | c :: s, substr => startsWith (c :: s) substr || Contains s substr

/-- The function `parseAtom`. The error of `parseSize` is discarded, which
leaves `size` at its zero value. -/
def parseAtom (b : Slice) (off : Int) : Run Atom :=
  if b.len ≥ SizeLen + TypeLen then do
    let b04 ← b.slice 0 4
    let size : Int := match parseSize b04.elems with
      | .ok s => s
      | .error _ => 0
    if size ≤ b.len then do
      let b48 ← b.slice 4 8
      let typ := parseType b48.elems
      let contents ← b.slice 0 size
      pure { Start := off, End := int64 (off + size), Size := size, Typ := typ,
             Contents := contents }
    else pure default
  else pure default

/-- The loop of `findChildWithType` from index `i`, for at most `fuel`
iterations. -/
def findChildWithTypeLoop (parent : Atom) (typ : GoString) : Nat → Int → Run Atom
  | 0, i => if i < parent.Contents.len then .unfinished else .ret default
  | fuel + 1, i =>
    if i < parent.Contents.len then do
      let off := int64 (parent.Start + i)
      let rest ← parent.Contents.sliceFrom i
      let child ← parseAtom rest off
      if child.Size ≠ 0 then
        if Contains child.Typ typ then pure child
        else findChildWithTypeLoop parent typ fuel (i + child.Size)
      else findChildWithTypeLoop parent typ fuel (i + 4)
    else .ret default

/-- The function `findChildWithType`. Every iteration moves the index forward,
so `len(parent.Contents)` iterations are enough (`findChildWithType_returns`). -/
def findChildWithType (parent : Atom) (typ : GoString) : Run Atom :=
  findChildWithTypeLoop parent typ parent.Contents.len (SizeLen + TypeLen : Nat)

/-! ## Predefined genres (`genres.go`) -/

/-- The strings returned by the `switch` of `PredefinedGenre.PredefinedGenre`,
in the order of the constants `Blues = iota`, `ClassicRock`, ..., `HardRock`:
the entry at index `k` is what the `case` of the constant of value `k` returns. -/
def genreNames : List String :=
  ["Blues", "Blues", "Country", "Dance", "Disco", "Funk",
   "Grunge", "Hip-Hop", "Jazz", "Metal", "New Age", "Oldies",
   "Other", "Pop", "R&B", "Rap", "Reggae", "Rock",
   "Techno", "Industrial", "Alternative", "Ska", "Death Metal", "Pranks",
   "Soundtrack", "Euro-Techno", "Ambient", "Trip-Hop", "Vocal", "Jazz+Funk",
   "Fusion", "Trance", "Classical", "Instrumental", "Acid", "House",
   "Game", "Sound Clip", "Gospel", "Noise", "Alternative Rock", "Bass",
   "Soul", "Punk", "Space", "Meditative", "Instrumental Pop", "Instrumental Rock",
   "Ethnic", "Gothic", "Darkwave", "Techno-Industrial", "Electronic", "Pop-Folk",
   "Eurodance", "Dream", "Southern Rock", "Comedy", "Cult", "Gangsta",
   "Top 40", "Christian Rap", "Pop/Funk", "Jungle", "Native US", "Cabaret",
   "New Wave", "Psychadelic", "Rave", "Showtunes", "Trailer", "Lo-Fi",
   "Tribal", "Acid Punk", "Acid Jazz", "Polka", "Retro", "Musical",
   "Rock & Roll", "Hard Rock"]

/-- The method `PredefinedGenre.PredefinedGenre`: the name of the matching
`case`, the empty string in the `default` branch. -/
def PredefinedGenre (pg : Int) : GoString :=
  if 0 ≤ pg then str (genreNames.getD pg.toNat "") else []

/-! ## `encoding/binary` and `strconv.FormatUint` -/

/-- The function `binary.BigEndian.Uint32`: panics (index 3 out of range) on a
slice of fewer than 4 bytes. -/
def Uint32 (b : Slice) : Run Nat :=
  if 3 < b.len then .ret (beValue (b.elems.take 4)) else .panicked

/-- The function `binary.BigEndian.Uint16`: panics (index 1 out of range) on a
slice of fewer than 2 bytes. -/
def Uint16 (b : Slice) : Run Nat :=
  if 1 < b.len then .ret (beValue (b.elems.take 2)) else .panicked

/-- The decimal digits of `n`, most significant first, put in front of `acc`;
`fuel` bounds the number of digits. -/
def formatBits : Nat → Nat → GoString → GoString
  | 0, _, acc => acc
  | fuel + 1, n, acc =>
    let acc1 := Fin.ofNat ((ch '0').val + n % 10) :: acc
    if n / 10 = 0 then acc1 else formatBits fuel (n / 10) acc1

/-- The function `strconv.FormatUint(n, 10)`. -/
def FormatUint (n : Nat) : GoString := formatBits (n + 1) n []

/-! ## Tag decoder -/

/-- The struct `metadata.Metadata`. -/
structure Metadata where
  Title : GoString
  Artist : GoString
  ArtistSort : GoString
  Album : GoString
  AlbumSort : GoString
  Year : GoString
  Track : GoString
  Genre : GoString
  Comment : GoString
  Lyrics : GoString
  FileBase : GoString
  FileDir : GoString
  deriving DecidableEq, Repr

/-- The function `getMetadataValueFromDataAtom`. -/
def getMetadataValueFromDataAtom (dataAtom : Atom) : Run Slice := do
  let valueAtom ← dataAtom.Contents.sliceFrom 8
  let metadataValue ← valueAtom.sliceFrom 16
  pure metadataValue

/-- The function `getTitleMetadata`. -/
def getTitleMetadata (ilstAtom : Atom) : Run GoString := do
  let titleAtom ← findChildWithType ilstAtom (str "nam")
  if titleAtom.Size > 0 then
    let contents ← getMetadataValueFromDataAtom titleAtom
    pure contents.toString
  else pure []

/-- The function `getArtistMetadata`. -/
def getArtistMetadata (ilstAtom : Atom) : Run GoString := do
  let artistAtom ← findChildWithType ilstAtom (str "ART")
  if artistAtom.Size > 0 then
    let contents ← getMetadataValueFromDataAtom artistAtom
    pure contents.toString
  else pure []

/-- The function `getArtistSortMetadata`. -/
def getArtistSortMetadata (ilstAtom : Atom) : Run GoString := do
  let artistSortAtom ← findChildWithType ilstAtom (str "soar")
  if artistSortAtom.Size > 0 then
    let contents ← getMetadataValueFromDataAtom artistSortAtom
    pure contents.toString
  else pure []

/-- The function `getAlbumMetadata`. -/
def getAlbumMetadata (ilstAtom : Atom) : Run GoString := do
  let albumAtom ← findChildWithType ilstAtom (str "alb")
  if albumAtom.Size > 0 then
    let contents ← getMetadataValueFromDataAtom albumAtom
    pure contents.toString
  else pure []

/-- The function `getAlbumSortMetadata`. -/
def getAlbumSortMetadata (ilstAtom : Atom) : Run GoString := do
  let albumSortAtom ← findChildWithType ilstAtom (str "soal")
  if albumSortAtom.Size > 0 then
    let contents ← getMetadataValueFromDataAtom albumSortAtom
    pure contents.toString
  else pure []

/-- The function `getYearMetadata`. -/
def getYearMetadata (ilstAtom : Atom) : Run GoString := do
  let yearAtom ← findChildWithType ilstAtom (str "day")
  if yearAtom.Size > 0 then
    let contents ← getMetadataValueFromDataAtom yearAtom
    pure contents.toString
  else pure []

/-- The function `getTrackMetadata`. -/
def getTrackMetadata (ilstAtom : Atom) : Run GoString := do
  let trackAtom ← findChildWithType ilstAtom (str "trkn")
  if trackAtom.Size > 0 then
    let contents ← getMetadataValueFromDataAtom trackAtom
    let c04 ← contents.slice 0 4
    let trackNumber ← Uint32 c04
    pure (FormatUint trackNumber)
  else pure []

/-- The function `getGenreMetadata`; `genreField - 1` is a `uint16` subtraction. -/
def getGenreMetadata (ilstAtom : Atom) : Run GoString := do
  let genreAtom0 ← findChildWithType ilstAtom (str "gnre")
  let genreAtom ← if genreAtom0.Size < 1 then findChildWithType ilstAtom (str "gen")
    else pure genreAtom0
  if genreAtom.Size > 0 then
    let contents ← getMetadataValueFromDataAtom genreAtom
    let genreField ← Uint16 contents
    let genreNumber : Int := ((genreField + 65535) % 65536 : Nat)
    let genre := PredefinedGenre genreNumber
    pure (if genre = [] then contents.toString else genre)
  else pure []

/-- The function `getCommentMetadata`. -/
def getCommentMetadata (ilstAtom : Atom) : Run GoString := do
  let commentAtom ← findChildWithType ilstAtom (str "cmt")
  if commentAtom.Size > 0 then
    let contents ← getMetadataValueFromDataAtom commentAtom
    pure contents.toString
  else pure []

/-- The function `getLyricsMetadata`. -/
def getLyricsMetadata (ilstAtom : Atom) : Run GoString := do
  let lyricsAtom ← findChildWithType ilstAtom (str "lyr")
  if lyricsAtom.Size > 0 then
    let contents ← getMetadataValueFromDataAtom lyricsAtom
    pure contents.toString
  else pure []

/-- The function `parse`. `Base` and `Dir` stand for `filepath.Base` and
`filepath.Dir` of the standard library. -/
def parse (Base Dir : GoString → GoString) (ilstAtom : Atom) (path : GoString) :
    Run Metadata := do
  let title ← getTitleMetadata ilstAtom
  let artist ← getArtistMetadata ilstAtom
  let artistSort ← getArtistSortMetadata ilstAtom
  let album ← getAlbumMetadata ilstAtom
  let albumSort ← getAlbumSortMetadata ilstAtom
  let year ← getYearMetadata ilstAtom
  let track ← getTrackMetadata ilstAtom
  let genre ← getGenreMetadata ilstAtom
  let comment ← getCommentMetadata ilstAtom
  let lyrics ← getLyricsMetadata ilstAtom
  pure { Title := title, Artist := artist, ArtistSort := artistSort, Album := album,
         AlbumSort := albumSort, Year := year, Track := track, Genre := genre,
         Comment := comment, Lyrics := lyrics, FileBase := Base path,
         FileDir := Dir path }

/-! ## Top-level parse -/

/-- One step of the ASCII path of `strings.EqualFold`: the two bytes are equal,
or the smaller is an upper-case letter and the larger the same letter in lower
case. A byte of `0x80` or more sends `EqualFold` to its Unicode path, which
compares runes by `unicode.SimpleFold`; against an ASCII letter other than
`k`, `K`, `s`, `S`, or a digit, that path answers `false`. -/
def foldEq (sr tr : Byte) : Bool :=
  if sr.val ≥ 128 ∨ tr.val ≥ 128 then false
  else if tr = sr then true
  else
    let lo := min sr.val tr.val
    let hi := max sr.val tr.val
    decide (65 ≤ lo ∧ lo ≤ 90 ∧ hi = lo + 32)

/-- The function `strings.EqualFold`, for a second argument made of ASCII digits
and of ASCII letters other than `k`, `K`, `s`, `S` (such as `ftypM4A`). -/
def EqualFold : GoString → GoString → Bool
  | [], [] => true
  | [], _ :: _ => false
  | _ :: _, [] => false
  | sr :: s, tr :: t => foldEq sr tr && EqualFold s t

/-- The function `isM4AContainer`: `file.Read` fills the 7-byte buffer with the
bytes found from offset 4 on; where the file ends before offset 11 the rest of
the buffer keeps its zero bytes. The errors of `Seek` and `Read` are ignored. -/
def isM4AContainer (file : File) : Bool :=
  let got := (file.bytes.drop 4).take 7
  let b := got ++ List.replicate (7 - got.length) 0
  EqualFold b (str "ftypM4A")

/-- The zero value `metadata.Metadata{}`. -/
instance : Inhabited Metadata := ⟨⟨[], [], [], [], [], [], [], [], [], [], [], []⟩⟩

/-- The errors `M4A` returns: the error of `os.Stat` or `os.OpenFile`, the three
messages it builds with `fmt.Errorf`, and the errors of the atom reader passed on
as they are. -/
inductive M4AError where
  | osError
  | notM4AContainer
  | atomError (err : Error)
  | failedUdta
  | failedMeta
  | failedIlst
  deriving DecidableEq, Repr

/-- The function `M4A`. `fs` is the file system: the file that `os.Stat` and
`os.OpenFile` find at a path, if any. `fuel` is the iteration budget of the loop
of `readSiblingWithType`. The result is the pair `(m, err)`. -/
def M4A (Base Dir : GoString → GoString) (fs : GoString → Option File) (fuel : Nat)
    (path : GoString) : Run (Metadata × Option M4AError) :=
  match fs path with
  | none => .ret (default, some .osError)
  | some f =>
    if isM4AContainer f ≠ true then .ret (default, some .notM4AContainer)
    else
      match readAtomAt f 0 with
      | .error err => .ret (default, some (.atomError err))
      | .ok ftyp =>
        readSiblingWithType f fuel ftyp (str "moov") >>= fun r =>
        match r with
        | .error err => .ret (default, some (.atomError err))
        | .ok moov => do
          let udta ← findChildWithType moov (str "udta")
          if udta.Size = 0 then pure (default, some .failedUdta)
          else
            let metaAtom ← findChildWithType udta (str "meta")
            if metaAtom.Size = 0 then pure (default, some .failedMeta)
            else
              let ilst ← findChildWithType metaAtom (str "ilst")
              if ilst.Size = 0 then pure (default, some .failedIlst)
              else
                let m ← parse Base Dir ilst path
                pure (m, none)

/-- The lower-case form of an ASCII letter; any other byte is unchanged. -/
def asciiLower (b : Byte) : Byte :=
  if 65 ≤ b.val ∧ b.val ≤ 90 then Fin.ofNat (b.val + 32) else b

/-! ## Layout of well-formed atoms -/

/-- A well-formed atom as it is laid out in a file or in the contents of its
parent: a 4-byte type and the bytes that follow the 8-byte header. -/
structure Box where
  typ : GoString
  body : List Byte

/-- The size field of a box: its 8-byte header and its body. -/
def Box.size (b : Box) : Nat := 8 + b.body.length

/-- The bytes of a box: big-endian size, type, body. -/
def Box.encode (b : Box) : List Byte := be32 b.size ++ (b.typ ++ b.body)

/-- A box is well formed when its type has 4 bytes and its size fits the 4-byte
size field. -/
def Box.wf (b : Box) : Prop := b.typ.length = 4 ∧ b.size < 2 ^ 32

instance (b : Box) : Decidable b.wf := inferInstanceAs (Decidable (_ ∧ _))

/-- The bytes of a run of boxes laid out one after the other. -/
def encodeAll : List Box → List Byte
  | [] => []
  | b :: bs => b.encode ++ encodeAll bs

/-! ## Reading decimal text -/

/-- The number that a string of decimal digits denotes. -/
def decimalValue (s : GoString) : Nat :=
  s.foldl (fun v c => v * 10 + (c.val - (ch '0').val)) 0

/-! ## Concrete inputs -/

/-- A file holding one 8-byte atom of type `free`. -/
def fileFree : File := ⟨[0, 0, 0, 8] ++ str "free", by decide⟩

/-- A file whose first atom declares the size zero: `00 00 00 00 "ftypM4A "`. -/
def fileZeroSize : File := ⟨[0, 0, 0, 0] ++ str "ftypM4A ", by decide⟩

/-- A file cut off after 5 bytes. -/
def fileTruncated : File := ⟨[0, 0, 0, 8, 102], by decide⟩

/-- The atom `readAtomAt` returns at offset 0 of `fileZeroSize`. -/
def atomZeroSize : Atom :=
  { Start := 0, End := 0, Size := 0, Typ := str "ftyp", Contents := Slice.ofBytes [] }

/-- A file of three 8-byte atoms of types `ftyp`, `free`, `moov`. -/
def fileThree : File :=
  ⟨[0, 0, 0, 8] ++ str "ftyp" ++ ([0, 0, 0, 8] ++ str "free") ++ ([0, 0, 0, 8] ++ str "moov"),
    by decide⟩

/-- The atom `readAtomAt` returns at offset 0 of `fileThree`. -/
def atomFtyp : Atom :=
  { Start := 0, End := 8, Size := 8, Typ := str "ftyp",
    Contents := Slice.ofBytes ([0, 0, 0, 8] ++ str "ftyp") }

/-- The 8-byte header of an `ilst` atom of 40 bytes. -/
def ilstHeader : List Byte := [0, 0, 0, 40] ++ str "ilst"

/-- An `ilst` atom at file offset 100 with two children: an 8-byte `free` atom
and a 24-byte atom of type `0xA9 "nam"` (a 16-byte body of zeros). -/
def ilstTwo : Atom :=
  { Start := 100, End := 140, Size := 40, Typ := str "ilst",
    Contents := Slice.ofBytes (ilstHeader ++ ([0, 0, 0, 8] ++ str "free")
      ++ ([0, 0, 0, 24] ++ (0xA9 :: str "nam") ++ List.replicate 16 0)) }

/-- An atom whose contents stop inside its own header. -/
def atomShort : Atom :=
  { Start := 0, End := 5, Size := 5, Typ := str "ilst", Contents := Slice.ofBytes [0, 0, 0, 5, 105] }

/-- An `ilst` atom whose only child is an 8-byte atom of type `0xA9 "nam"`: a
header and nothing else, no `data` sub-atom. -/
def ilstBareTitle : Atom :=
  { Start := 100, End := 116, Size := 16, Typ := str "ilst",
    Contents := Slice.ofBytes ([0, 0, 0, 16] ++ str "ilst" ++ ([0, 0, 0, 8] ++ (0xA9 :: str "nam"))) }

/-- An `ilst` atom whose only child is a `trkn` atom with a 2-byte payload `00 05`
after the 16-byte `data` sub-header. -/
def ilstShortTrack : Atom :=
  { Start := 100, End := 134, Size := 34, Typ := str "ilst",
    Contents := Slice.ofBytes ([0, 0, 0, 34] ++ str "ilst"
      ++ ([0, 0, 0, 26] ++ str "trkn" ++ ([0, 0, 0, 18] ++ str "data" ++ List.replicate 8 0)
        ++ [0, 5])) }

/-- An `ilst` atom whose only child is the title atom of type `0xA9 "nam"` with
payload `Test Song`. -/
def ilstTestSong : Atom :=
  { Start := 100, End := 141, Size := 41, Typ := str "ilst",
    Contents := Slice.ofBytes ([0, 0, 0, 41] ++ str "ilst"
      ++ (be32 (24 + (str "Test Song").length) ++ (0xA9 :: str "nam")
        ++ ([0, 0, 0, 25] ++ str "data" ++ [0, 0, 0, 1, 0, 0, 0, 0]) ++ str "Test Song")) }

/-- An `ilst` atom whose only child is a `trkn` atom with the payload
`00 00 00 05 00 00` after the 16-byte `data` sub-header. -/
def ilstTrack : Atom :=
  { Start := 100, End := 138, Size := 38, Typ := str "ilst",
    Contents := Slice.ofBytes ([0, 0, 0, 38] ++ str "ilst"
      ++ ([0, 0, 0, 30] ++ str "trkn" ++ ([0, 0, 0, 22] ++ str "data" ++ List.replicate 8 0)
        ++ [0, 0, 0, 5, 0, 0])) }

/-- The `trkn` child of `ilstTrack`. -/
def atomTrack : Atom :=
  { Start := 108, End := 138, Size := 30, Typ := str "trkn",
    Contents := Slice.ofBytes ([0, 0, 0, 30] ++ str "trkn"
      ++ ([0, 0, 0, 22] ++ str "data" ++ List.replicate 8 0) ++ [0, 0, 0, 5, 0, 0]) }

/-- The 16-byte `data` sub-header used in the concrete tag atoms. -/
def dataHeader : List Byte := [0, 0, 0, 18] ++ str "data" ++ List.replicate 8 0

/-- The `gnre` atom with the 2-byte payload `hi lo`. -/
def atomGenre (hi lo : Byte) : Atom :=
  { Start := 108, End := 134, Size := 26, Typ := str "gnre",
    Contents := Slice.ofBytes ([0, 0, 0, 26] ++ str "gnre" ++ dataHeader ++ [hi, lo]) }

/-- An `ilst` atom whose only child is `atomGenre hi lo`. -/
def ilstGenre (hi lo : Byte) : Atom :=
  { Start := 100, End := 134, Size := 34, Typ := str "ilst",
    Contents := Slice.ofBytes ([0, 0, 0, 34] ++ str "ilst"
      ++ ([0, 0, 0, 26] ++ str "gnre" ++ dataHeader ++ [hi, lo])) }

/-- An `ilst` atom with no `gnre` child and one child of type `0xA9 "gen"` whose
free-text payload is `P` (at most 200 bytes, so that the sizes fit one byte). -/
def ilstGen (P : List Byte) : Atom :=
  { Start := 100, End := 132 + P.length, Size := 32 + P.length, Typ := str "ilst",
    Contents := Slice.ofBytes (be32 (32 + P.length) ++ str "ilst"
      ++ (be32 (24 + P.length) ++ (0xA9 :: str "gen") ++ dataHeader ++ P)) }

/-- A file with the signature `ftypM4A ` and a `moov` atom whose only child is a
`free` atom: no `udta`. -/
def fileNoUdta : File :=
  ⟨[0, 0, 0, 16] ++ str "ftyp" ++ (str "M4A " ++ [0, 0, 0, 0])
    ++ ([0, 0, 0, 16] ++ str "moov" ++ ([0, 0, 0, 8] ++ str "free")), by decide⟩

/-- A file whose bytes 4 to 10 spell `ftypmp4`: another MPEG-4 brand. -/
def fileOtherBrand : File :=
  ⟨[0, 0, 0, 16] ++ str "ftyp" ++ (str "mp42" ++ [0, 0, 0, 0]), by decide⟩

/-- An `ilst` atom with an `aART` child (album artist `Various`) followed by
a `0xA9 "ART"` child (artist `Solo`). -/
def ilstArtists : Atom :=
  { Start := 100, End := 170, Size := 70, Typ := str "ilst",
    Contents := Slice.ofBytes ([0, 0, 0, 70] ++ str "ilst"
      ++ ([0, 0, 0, 31] ++ str "aART" ++ dataHeader ++ str "Various")
      ++ ([0, 0, 0, 28] ++ (0xA9 :: str "ART") ++ dataHeader ++ str "Solo")) }

/-- A parent whose contents after the header are malformed: a size field of
zero, a size field larger than what is left, then 3 bytes. -/
def atomMalformed : Atom :=
  { Start := 0, End := 27, Size := 27, Typ := str "ilst",
    Contents := Slice.ofBytes ([0, 0, 0, 27] ++ str "ilst" ++ ([0, 0, 0, 0] ++ str "free")
      ++ ([0, 0, 1, 0] ++ str "name") ++ [1, 2, 3]) }

/-- A parent with one child whose size field is 3 and whose type is `name`. -/
def atomUndersized : Atom :=
  { Start := 0, End := 16, Size := 16, Typ := str "ilst",
    Contents := Slice.ofBytes ([0, 0, 0, 16] ++ str "ilst" ++ ([0, 0, 0, 3] ++ str "name")) }

/-! ## Auxiliary lemmas: outcomes -/

@[simp] theorem Run.ret_bind {α β : Type} (a : α) (k : α → Run β) :
    (Run.ret a >>= k) = k a := rfl

@[simp] theorem Run.panicked_bind {α β : Type} (k : α → Run β) :
    ((Run.panicked : Run α) >>= k) = Run.panicked := rfl

@[simp] theorem Run.unfinished_bind {α β : Type} (k : α → Run β) :
    ((Run.unfinished : Run α) >>= k) = Run.unfinished := rfl

@[simp] theorem Run.pure_eq {α : Type} (a : α) : (pure a : Run α) = Run.ret a := rfl

/-! ## Auxiliary lemmas: integers and `parseSize` -/

theorem int64_eq_self {x : Int} (h0 : -(2 ^ 63) ≤ x) (h1 : x < 2 ^ 63) : int64 x = x := by
  unfold int64
  omega

theorem beValue_lt : ∀ bs : List Byte, beValue bs < 256 ^ bs.length
  | [] => by simp [beValue]
  | b :: bs => by
    have ih := beValue_lt bs
    have hb : b.val < 256 := b.isLt
    have hp : 0 < 256 ^ bs.length := Nat.pow_pos (by norm_num)
    simp only [beValue, List.length_cons, pow_succ]
    nlinarith

theorem digitVal_hextable : ∀ k : Fin 16, digitVal (hextable.getD k.val 0) = some k.val := by
  decide

theorem hextable_ne_sign : ∀ k : Fin 16,
    hextable.getD k.val 0 ≠ ch '+' ∧ hextable.getD k.val 0 ≠ ch '-' := by
  decide

theorem parseUintLoop_digit (k : Nat) (hk : k < 16) (cs : GoString) (n : Nat)
    (hn : n < 2 ^ 60) :
    parseUintLoop (hextable.getD k 0 :: cs) n = parseUintLoop cs (n * 16 + k) := by
  have hd := digitVal_hextable ⟨k, hk⟩
  simp only at hd
  rw [parseUintLoop, hd]
  have h1 : ¬ k ≥ 16 := by omega
  have h2 : ¬ n ≥ (2 ^ 64 - 1) / 16 + 1 := by norm_num; omega
  have h3 : n * 16 % 2 ^ 64 = n * 16 := Nat.mod_eq_of_lt (by omega)
  have h4 : (n * 16 + k) % 2 ^ 64 = n * 16 + k := Nat.mod_eq_of_lt (by omega)
  simp only [h1, h2, if_false, h3, h4]
  have h5 : ¬ (n * 16 + k < n * 16 ∨ n * 16 + k > 2 ^ 64 - 1) := by omega
  simp only [h5, if_false]

theorem parseUintLoop_byte (b : Byte) (bs : List Byte) (n : Nat) (hn : n < 2 ^ 56) :
    parseUintLoop (hexEncodeToString (b :: bs)) n
      = parseUintLoop (hexEncodeToString bs) (n * 256 + b.val) := by
  have hb : b.val < 256 := b.isLt
  rw [hexEncodeToString, parseUintLoop_digit _ (by omega) _ _ (by omega),
    parseUintLoop_digit _ (Nat.mod_lt _ (by norm_num)) _ _ (by omega)]
  congr 1
  omega

theorem parseUintLoop_hex : ∀ (bs : List Byte) (n : Nat),
    (n + 1) * 256 ^ bs.length ≤ 2 ^ 56 →
    parseUintLoop (hexEncodeToString bs) n = .ok (n * 256 ^ bs.length + beValue bs)
  | [], n, _ => by simp [hexEncodeToString, parseUintLoop, beValue]
  | b :: bs, n, h => by
    have hb : b.val < 256 := b.isLt
    have hp : 0 < 256 ^ bs.length := Nat.pow_pos (by norm_num)
    simp only [List.length_cons, pow_succ] at h
    have hn : n < 2 ^ 56 := by nlinarith
    rw [parseUintLoop_byte b bs n hn, parseUintLoop_hex bs (n * 256 + b.val) (by nlinarith)]
    simp only [beValue, List.length_cons, pow_succ]
    congr 1
    ring

/-- On a non-empty buffer of at most 7 bytes `parseSize` returns the big-endian
value of the buffer. -/
theorem parseSize_eq_beValue (bs : List Byte) (h0 : bs ≠ []) (h7 : bs.length ≤ 7) :
    parseSize bs = .ok (beValue bs : Int) := by
  obtain ⟨b, bs, rfl⟩ := List.exists_cons_of_ne_nil h0
  have hpow : 256 ^ (b :: bs).length ≤ 2 ^ 56 := by
    calc 256 ^ (b :: bs).length ≤ 256 ^ 7 := Nat.pow_le_pow_right (by norm_num) h7
      _ = 2 ^ 56 := by norm_num
  have hloop := parseUintLoop_hex (b :: bs) 0 (by simpa using hpow)
  have hlt := beValue_lt (b :: bs)
  have hsign := hextable_ne_sign ⟨b.val / 16, by have := b.isLt; omega⟩
  simp only at hsign
  have hne : hexEncodeToString (b :: bs) ≠ [] := by simp [hexEncodeToString]
  have hhead : (hexEncodeToString (b :: bs)).head? = some (hextable.getD (b.val / 16) 0) := by
    simp [hexEncodeToString]
  have hplus : ¬ some (hextable.getD (b.val / 16) 0) = some (ch '+') := by
    simpa using hsign.1
  have hminus : ¬ some (hextable.getD (b.val / 16) 0) = some (ch '-') := by
    simpa using hsign.2
  have hv : (beValue (b :: bs) : Int) < 2 ^ 63 := by
    have : beValue (b :: bs) < 2 ^ 63 := by
      calc beValue (b :: bs) < 256 ^ (b :: bs).length := hlt
        _ ≤ 2 ^ 56 := hpow
        _ < 2 ^ 63 := by norm_num
    exact_mod_cast this
  have hge : ¬ beValue (b :: bs) ≥ 2 ^ 63 := by
    have : beValue (b :: bs) < 2 ^ 63 := by exact_mod_cast hv
    omega
  simp only [parseSize, ParseInt16, ParseUint16, hne, hhead, hplus, hminus, if_false,
    or_self, hloop, zero_mul, zero_add, decide_False, hge, and_false, false_and]
  rw [int64_eq_self (by omega) hv]

/-- The size `parseSize` returns is never negative, on any buffer. -/
theorem parseSize_nonneg (bs : List Byte) (n : Int) (h : parseSize bs = .ok n) : 0 ≤ n := by
  cases bs with
  | nil => simp [parseSize, ParseInt16, hexEncodeToString] at h
  | cons b bs =>
    have hsign := hextable_ne_sign ⟨b.val / 16, by have := b.isLt; omega⟩
    simp only at hsign
    have hne : hexEncodeToString (b :: bs) ≠ [] := by simp [hexEncodeToString]
    have hhead : (hexEncodeToString (b :: bs)).head? = some (hextable.getD (b.val / 16) 0) := by
      simp [hexEncodeToString]
    have hplus : ¬ some (hextable.getD (b.val / 16) 0) = some (ch '+') := by
      simpa using hsign.1
    have hminus : ¬ some (hextable.getD (b.val / 16) 0) = some (ch '-') := by
      simpa using hsign.2
    simp only [parseSize, ParseInt16, hne, hhead, hplus, hminus, if_false, or_self,
      decide_False] at h
    cases hu : ParseUint16 (hexEncodeToString (b :: bs)) with
    | error e => simp [hu] at h
    | ok un =>
      simp only [hu] at h
      by_cases hc : un ≥ 2 ^ 63
      · have hc2 : (9223372036854775808 : Nat) ≤ un := by norm_num at hc; exact hc
        simp [hc2] at h
      · simp only [hc, and_false, false_and, if_false, Bool.false_eq_true] at h
        have hlt : (un : Int) < 2 ^ 63 := by
          have : un < 2 ^ 63 := by omega
          exact_mod_cast this
        rw [int64_eq_self (by omega) hlt] at h
        cases h
        omega

/-- On a 4-byte buffer `parseSize` returns the big-endian unsigned value. -/
theorem parseSize_four (a b c d : Byte) :
    parseSize [a, b, c, d]
      = .ok ((a.val * 2 ^ 24 + b.val * 2 ^ 16 + c.val * 2 ^ 8 + d.val : Nat) : Int) := by
  rw [parseSize_eq_beValue _ (by simp) (by simp)]
  simp only [beValue, List.length_cons, List.length_nil]
  norm_num
  ring

/-! ## Auxiliary lemmas: reading the file -/

theorem File.ReadAt_ok (f : File) (n off : Nat) (h : off + n ≤ f.bytes.length) :
    f.ReadAt n (off : Int) = .ok ((f.bytes.drop off).take n) := by
  unfold File.ReadAt
  have h0 : ¬ ((off : Int) < 0) := by omega
  simp only [h0, if_false, Int.toNat_ofNat]
  by_cases hn : n = 0
  · simp [hn]
  · simp [hn, h]

theorem File.ReadAt_error (f : File) (n : Nat) (off : Int) (hn : n ≠ 0)
    (h : off < 0 ∨ f.bytes.length < off.toNat + n) :
    ∃ e, f.ReadAt n off = .error e := by
  unfold File.ReadAt
  by_cases h0 : off < 0
  · exact ⟨.negativeOffset, by simp [h0]⟩
  · have h1 : ¬ (off.toNat + n ≤ f.bytes.length) := by
      rcases h with h | h
      · exact absurd h h0
      · omega
    exact ⟨.EOF, by simp [h0, hn, h1]⟩

/-- The successful path of `readAtomAt`, from the results of its three reads. -/
theorem readAtomAt_of_reads (f : File) (off : Int) (bs : List Byte) (size : Int)
    (typ content : List Byte)
    (h1 : f.ReadAt SizeLen off = .ok bs) (h2 : parseSize bs = .ok size)
    (h3 : f.ReadAt SizeLen (int64 (off + SizeLen)) = .ok typ)
    (h4 : f.ReadAt size.toNat off = .ok content) :
    readAtomAt f off = .ok
      { Start := off, End := int64 (off + size), Size := size, Typ := typ,
        Contents := Slice.ofBytes content } := by
  unfold readAtomAt
  simp only [h1, h2, h3, h4, parseType]

theorem readAtomAt_ok (f : File) (off : Nat) (a b c d : Byte)
    (h8 : off + 8 ≤ f.bytes.length)
    (hsz : (f.bytes.drop off).take 4 = [a, b, c, d])
    (hfit : off + (a.val * 2 ^ 24 + b.val * 2 ^ 16 + c.val * 2 ^ 8 + d.val)
      ≤ f.bytes.length) :
    readAtomAt f (off : Int) = .ok
      { Start := off
        End := (off : Int) + ((a.val * 2 ^ 24 + b.val * 2 ^ 16 + c.val * 2 ^ 8 + d.val : Nat) : Int)
        Size := ((a.val * 2 ^ 24 + b.val * 2 ^ 16 + c.val * 2 ^ 8 + d.val : Nat) : Int)
        Typ := (f.bytes.drop (off + 4)).take 4
        Contents := Slice.ofBytes ((f.bytes.drop off).take
          (a.val * 2 ^ 24 + b.val * 2 ^ 16 + c.val * 2 ^ 8 + d.val)) } := by
  have hlen := f.size_lt
  have h4 : int64 ((off : Int) + (SizeLen : Nat)) = ((off + 4 : Nat) : Int) := by
    rw [int64_eq_self] <;> simp only [SizeLen] <;> omega
  have hp := parseSize_four a b c d
  generalize a.val * 2 ^ 24 + b.val * 2 ^ 16 + c.val * 2 ^ 8 + d.val = n
    at hfit hp ⊢
  have hE : int64 ((off : Int) + (n : Int)) = (off : Int) + (n : Int) := by
    rw [int64_eq_self] <;> omega
  have r1 : f.ReadAt SizeLen ↑off = .ok ((f.bytes.drop off).take 4) :=
    File.ReadAt_ok f 4 off (by omega)
  have r2 : f.ReadAt SizeLen (int64 (↑off + ↑SizeLen))
      = .ok ((f.bytes.drop (off + 4)).take 4) := by
    rw [h4]; exact File.ReadAt_ok f 4 (off + 4) (by omega)
  have r3 : f.ReadAt (n : Int).toNat ↑off = .ok ((f.bytes.drop off).take n) := by
    rw [Int.toNat_ofNat]; exact File.ReadAt_ok f n off hfit
  have h := readAtomAt_of_reads f off _ n _ _ r1 (by rw [hsz]; exact hp) r2 r3
  rw [hE] at h
  exact h

/-- C1: at an offset where 8 bytes are available and the big-endian size field
`n` keeps `off + n` within the file, `readAtomAt` succeeds with `Start = off`,
`End - Start = Size = n`, `Type` the 4 bytes at `off+4` and `Contents` the `n`
file bytes from `off`; and `parseSize` returns the big-endian unsigned value of
every 4-byte buffer, without an error. -/
theorem readAtomAt_valid_header (f : File) (off : Nat) (a b c d : Byte)
    (h8 : off + 8 ≤ f.bytes.length)
    (hsz : (f.bytes.drop off).take 4 = [a, b, c, d])
    (hfit : off + (a.val * 2 ^ 24 + b.val * 2 ^ 16 + c.val * 2 ^ 8 + d.val)
      ≤ f.bytes.length) :
    (∃ atom, readAtomAt f (off : Int) = .ok atom ∧
      atom.Start = off ∧
      atom.End - atom.Start = atom.Size ∧
      atom.Size = ((a.val * 2 ^ 24 + b.val * 2 ^ 16 + c.val * 2 ^ 8 + d.val : Nat) : Int) ∧
      atom.Typ = (f.bytes.drop (off + 4)).take 4 ∧
      atom.Typ.length = 4 ∧
      atom.Contents.elems = (f.bytes.drop off).take
        (a.val * 2 ^ 24 + b.val * 2 ^ 16 + c.val * 2 ^ 8 + d.val) ∧
      atom.Contents.len = a.val * 2 ^ 24 + b.val * 2 ^ 16 + c.val * 2 ^ 8 + d.val) ∧
    (∀ w x y z : Byte, parseSize [w, x, y, z]
      = .ok ((w.val * 2 ^ 24 + x.val * 2 ^ 16 + y.val * 2 ^ 8 + z.val : Nat) : Int)) := by
  refine ⟨⟨_, readAtomAt_ok f off a b c d h8 hsz hfit, rfl, by simp, rfl, rfl, ?_, rfl, ?_⟩,
    parseSize_four⟩
  · simp only [List.length_take, List.length_drop]
    omega
  · simp only [Slice.len, Slice.ofBytes, List.length_take, List.length_drop]
    omega

theorem readAtomAt_valid_header_witness :
    (∃ atom, readAtomAt fileFree ((0 : Nat) : Int) = .ok atom ∧
      atom.Start = (0 : Nat) ∧
      atom.End - atom.Start = atom.Size ∧
      atom.Size = (((0 : Byte).val * 2 ^ 24 + (0 : Byte).val * 2 ^ 16 + (0 : Byte).val * 2 ^ 8
        + (8 : Byte).val : Nat) : Int) ∧
      atom.Typ = (fileFree.bytes.drop (0 + 4)).take 4 ∧
      atom.Typ.length = 4 ∧
      atom.Contents.elems = (fileFree.bytes.drop 0).take
        ((0 : Byte).val * 2 ^ 24 + (0 : Byte).val * 2 ^ 16 + (0 : Byte).val * 2 ^ 8
          + (8 : Byte).val) ∧
      atom.Contents.len = (0 : Byte).val * 2 ^ 24 + (0 : Byte).val * 2 ^ 16
        + (0 : Byte).val * 2 ^ 8 + (8 : Byte).val) ∧
    (∀ w x y z : Byte, parseSize [w, x, y, z]
      = .ok ((w.val * 2 ^ 24 + x.val * 2 ^ 16 + y.val * 2 ^ 8 + z.val : Nat) : Int)) :=
  readAtomAt_valid_header fileFree 0 0 0 0 8 (by decide) (by decide) (by decide)

/-- C2: on the file `00 00 00 00 "ftypM4A "` the size field at offset 0 decodes
to zero and `readAtomAt` returns, without an error, an atom of `Size` 0 whose
`End` is its `Start`. -/
theorem readAtomAt_zero_size_succeeds :
    parseSize (fileZeroSize.bytes.take 4) = .ok 0 ∧
    readAtomAt fileZeroSize 0
      = .ok { Start := 0, End := 0, Size := 0, Typ := str "ftyp", Contents := Slice.ofBytes [] } := by
  decide

theorem File.ReadAt_inv (f : File) (n : Nat) (off : Int) (bs : List Byte)
    (h : f.ReadAt n off = .ok bs) :
    0 ≤ off ∧ (n = 0 ∨ off.toNat + n ≤ f.bytes.length) := by
  unfold File.ReadAt at h
  by_cases h0 : off < 0
  · simp [h0] at h
  · by_cases hn : n = 0
    · exact ⟨by omega, Or.inl hn⟩
    · by_cases hl : off.toNat + n ≤ f.bytes.length
      · exact ⟨by omega, Or.inr hl⟩
      · simp [h0, hn, hl] at h

/-- A successful `readAtomAt` went through its three reads. -/
theorem readAtomAt_inv (f : File) (off : Int) (a : Atom) (h : readAtomAt f off = .ok a) :
    ∃ bs size typ content, f.ReadAt SizeLen off = .ok bs ∧ parseSize bs = .ok size ∧
      f.ReadAt SizeLen (int64 (off + SizeLen)) = .ok typ ∧
      f.ReadAt size.toNat off = .ok content ∧
      a = { Start := off, End := int64 (off + size), Size := size, Typ := typ,
            Contents := Slice.ofBytes content } := by
  unfold readAtomAt at h
  cases h1 : f.ReadAt SizeLen off with
  | error e => simp only [h1] at h; cases h
  | ok bs =>
    cases h2 : parseSize bs with
    | error e => simp only [h1, h2] at h; cases h
    | ok size =>
      cases h3 : f.ReadAt SizeLen (int64 (off + SizeLen)) with
      | error e => simp only [h1, h2, h3] at h; cases h
      | ok typ =>
        cases h4 : f.ReadAt size.toNat off with
        | error e => simp only [h1, h2, h3, h4] at h; cases h
        | ok content =>
          simp only [h1, h2, h3, h4, parseType, Except.ok.injEq] at h
          exact ⟨bs, size, typ, content, rfl, h2, rfl, h4, h.symm⟩

theorem File.ReadAt_eq (f : File) (n : Nat) (off : Int) (bs : List Byte) (hn : n ≠ 0)
    (h : f.ReadAt n off = .ok bs) : bs = (f.bytes.drop off.toNat).take n := by
  have hi := File.ReadAt_inv f n off bs h
  unfold File.ReadAt at h
  have h0 : ¬ off < 0 := by omega
  have hl : off.toNat + n ≤ f.bytes.length := by
    rcases hi.2 with h | h
    · exact absurd h hn
    · exact h
  simp only [h0, hn, hl, if_false, if_true, Except.ok.injEq] at h
  exact h.symm

/-- C3: `readAtomAt` returns an error when fewer than 8 bytes are available from
`off` (a negative offset has none), and when the size field decodes to more
than the number of bytes left in the file from `off`. -/
theorem readAtomAt_truncated (f : File) (off : Int)
    (h : off < 0 ∨ f.bytes.length < off.toNat + 8 ∨
      ∃ a b c d : Byte, (f.bytes.drop off.toNat).take 4 = [a, b, c, d] ∧
        f.bytes.length < off.toNat + (a.val * 2 ^ 24 + b.val * 2 ^ 16 + c.val * 2 ^ 8 + d.val)) :
    ∃ e, readAtomAt f off = .error e := by
  cases hr : readAtomAt f off with
  | error e => exact ⟨e, rfl⟩
  | ok atom =>
    exfalso
    obtain ⟨bs, size, typ, content, h1, h2, h3, h4, -⟩ := readAtomAt_inv f off atom hr
    have hlen := f.size_lt
    have i1 := File.ReadAt_inv f _ _ _ h1
    have i3 := File.ReadAt_inv f _ _ _ h3
    have i4 := File.ReadAt_inv f _ _ _ h4
    have e1 := File.ReadAt_eq f _ _ _ (by decide) h1
    simp only [SizeLen] at i1 i3 e1
    have hoff : int64 (off + ((4 : Nat) : Int)) = off + 4 := by
      rw [int64_eq_self] <;> omega
    rw [hoff] at i3
    rcases h with h | h | ⟨a, b, c, d, hb, hlt⟩
    · omega
    · omega
    · rw [hb] at e1
      rw [e1, parseSize_four] at h2
      cases h2
      rw [Int.toNat_ofNat] at i4
      omega

theorem readAtomAt_truncated_witness :
    ((0 : Int) < 0 ∨ fileTruncated.bytes.length < (0 : Int).toNat + 8 ∨
      ∃ a b c d : Byte, (fileTruncated.bytes.drop (0 : Int).toNat).take 4 = [a, b, c, d] ∧
        fileTruncated.bytes.length
          < (0 : Int).toNat + (a.val * 2 ^ 24 + b.val * 2 ^ 16 + c.val * 2 ^ 8 + d.val)) ∧
    ∃ e, readAtomAt fileTruncated 0 = .error e :=
  ⟨Or.inr (Or.inl (by decide)),
    readAtomAt_truncated fileTruncated 0 (Or.inr (Or.inl (by decide)))⟩

/-! ## Auxiliary lemmas: boxes in a file -/

theorem be32_val (n : Nat) (h : n < 2 ^ 32) :
    ∃ a b c d : Byte, be32 n = [a, b, c, d] ∧
      a.val * 2 ^ 24 + b.val * 2 ^ 16 + c.val * 2 ^ 8 + d.val = n := by
  refine ⟨_, _, _, _, rfl, ?_⟩
  show n / 2 ^ 24 % 256 * 2 ^ 24 + n / 2 ^ 16 % 256 * 2 ^ 16 + n / 2 ^ 8 % 256 * 2 ^ 8
    + n % 256 = n
  omega

theorem be32_length (n : Nat) : (be32 n).length = 4 := rfl

theorem Box.encode_length (b : Box) (h : b.wf) : b.encode.length = b.size := by
  simp only [Box.encode, List.length_append, be32_length, h.1, Box.size]
  omega

/-- Reading a well-formed box that lies at the end of `pre` in the file. -/
theorem readAtomAt_box (f : File) (pre rest : List Byte) (b : Box) (hwf : b.wf)
    (hfile : f.bytes = pre ++ (b.encode ++ rest)) :
    readAtomAt f (pre.length : Int) = .ok
      { Start := pre.length, End := (pre.length : Int) + (b.size : Int), Size := b.size,
        Typ := b.typ, Contents := Slice.ofBytes b.encode } := by
  obtain ⟨x, y, z, w, hbe, hval⟩ := be32_val b.size hwf.2
  have hlenE := Box.encode_length b hwf
  have hsize : 8 ≤ b.size := by simp [Box.size]
  have hlen : f.bytes.length = pre.length + (b.size + rest.length) := by
    rw [hfile]; simp only [List.length_append, hlenE]
  have hdrop : f.bytes.drop pre.length = b.encode ++ rest := by
    rw [hfile, List.drop_left]
  have hsz : (f.bytes.drop pre.length).take 4 = [x, y, z, w] := by
    rw [hdrop, Box.encode, hbe]; rfl
  have h := readAtomAt_ok f pre.length x y z w (by omega) hsz (by omega)
  rw [hval] at h
  rw [h]
  have htyp : (f.bytes.drop (pre.length + 4)).take 4 = b.typ := by
    rw [← List.drop_drop, hdrop, Box.encode, hbe]
    show List.take 4 (b.typ ++ b.body ++ rest) = b.typ
    rw [List.append_assoc, ← hwf.1, List.take_left]
  have hcont : (f.bytes.drop pre.length).take b.size = b.encode := by
    rw [hdrop, ← hlenE, List.take_left]
  rw [htyp, hcont]

/-! ## Auxiliary lemmas: sibling search -/

theorem readSiblingWithType_match (f : File) (fuel : Nat) (a sib : Atom) (t : GoString)
    (h : readAtomAt f a.End = .ok sib) (ht : sib.Typ = t) :
    readSiblingWithType f (fuel + 1) a t = .ret (.ok sib) := by
  simp only [readSiblingWithType, readSibling, h, ht, if_true]

theorem readSiblingWithType_skip (f : File) (fuel : Nat) (a sib : Atom) (t : GoString)
    (h : readAtomAt f a.End = .ok sib) (ht : sib.Typ ≠ t) :
    readSiblingWithType f (fuel + 1) a t = readSiblingWithType f fuel sib t := by
  simp only [readSiblingWithType, readSibling, h, ht, if_false]

theorem readSiblingWithType_error (f : File) (fuel : Nat) (a : Atom) (t : GoString)
    (e : Error) (h : readAtomAt f a.End = .error e) :
    readSiblingWithType f (fuel + 1) a t
      = .ret (.error (.ReadSiblingWithTypeError a.Typ t (.ReadSiblingEror a.Typ e))) := by
  simp only [readSiblingWithType, readSibling, h]

theorem encodeAll_length_ge (bs : List Box) : bs.length ≤ (encodeAll bs).length := by
  induction bs with
  | nil => simp [encodeAll]
  | cons b bs ih =>
    simp only [encodeAll, List.length_append, List.length_cons, Box.encode, be32_length]
    omega

/-- The search walks over a run of well-formed boxes none of which has the
target type, and continues from the atom of the last one. -/
theorem readSiblingWithType_run (f : File) (t : GoString) :
    ∀ (skipped : List Box) (pre rest : List Byte) (a : Atom) (fuel : Nat),
      f.bytes = pre ++ (encodeAll skipped ++ rest) → a.End = pre.length →
      (∀ b ∈ skipped, b.wf) → (∀ b ∈ skipped, b.typ ≠ t) →
      ∃ a1 : Atom, a1.End = ((pre.length + (encodeAll skipped).length : Nat) : Int) ∧
        (skipped = [] → a1 = a) ∧
        readSiblingWithType f (skipped.length + fuel) a t = readSiblingWithType f fuel a1 t := by
  intro skipped
  induction skipped with
  | nil =>
    intro pre rest a fuel _ hEnd _ _
    exact ⟨a, by simp [encodeAll, hEnd], fun _ => rfl, by simp⟩
  | cons b bs ih =>
    intro pre rest a fuel hfile hEnd hwf hne
    have hb := hwf b (List.mem_cons_self _ _)
    have hfile1 : f.bytes = pre ++ (b.encode ++ (encodeAll bs ++ rest)) := by
      rw [hfile, encodeAll, List.append_assoc]
    have hread := readAtomAt_box f pre _ b hb hfile1
    rw [← hEnd] at hread
    have hfile2 : f.bytes = (pre ++ b.encode) ++ (encodeAll bs ++ rest) := by
      rw [hfile1, List.append_assoc]
    obtain ⟨a1, hE1, -, hrun⟩ := ih (pre ++ b.encode) rest
      { Start := a.End, End := a.End + (b.size : Int), Size := b.size, Typ := b.typ,
        Contents := Slice.ofBytes b.encode } fuel hfile2
      (by
        show a.End + (b.size : Int) = ((pre ++ b.encode).length : Int)
        rw [List.length_append, Box.encode_length b hb, hEnd]
        push_cast
        rfl)
      (fun x hx => hwf x (List.mem_cons_of_mem _ hx))
      (fun x hx => hne x (List.mem_cons_of_mem _ hx))
    refine ⟨a1, ?_, fun h => absurd h (List.cons_ne_nil _ _), ?_⟩
    · rw [hE1]
      simp only [encodeAll, List.length_append]
      congr 1
      omega
    · rw [List.length_cons, Nat.add_right_comm,
        readSiblingWithType_skip f _ a _ t hread (hne b (List.mem_cons_self _ _))]
      exact hrun

/-- C4: when the file holds, from `a.End` on, a run of well-formed atoms whose
types differ from the target `t`, then (1) if a well-formed atom of type `t`
follows the run, `readSiblingWithType(f, a, t)` returns that atom, the first
sibling after `a` of type `t`, with `Start` its file offset, `Size` its size
field and `Contents` its bytes; (2) if instead the read after the run fails,
it returns an error. One iteration per atom read is used, and the number of
atoms of the run is at most the number of its bytes. -/
theorem readSiblingWithType_first_match (f : File) (a : Atom) (t : GoString)
    (pre : List Byte) (skipped : List Box) (rest : List Byte) (fuel : Nat)
    (hfile : f.bytes = pre ++ (encodeAll skipped ++ rest))
    (hEnd : a.End = pre.length)
    (hwf : ∀ b ∈ skipped, b.wf)
    (hne : ∀ b ∈ skipped, b.typ ≠ t)
    (hfuel : skipped.length < fuel) :
    (∀ (target : Box) (post : List Byte),
      rest = target.encode ++ post → target.wf → target.typ = t →
      readSiblingWithType f fuel a t = .ret (.ok
        { Start := ((pre.length + (encodeAll skipped).length : Nat) : Int)
          End := ((pre.length + (encodeAll skipped).length + target.size : Nat) : Int)
          Size := target.size
          Typ := target.typ
          Contents := Slice.ofBytes target.encode })) ∧
    (∀ e : Error,
      readAtomAt f ((pre.length + (encodeAll skipped).length : Nat) : Int) = .error e →
      ∃ e1, readSiblingWithType f fuel a t = .ret (.error e1)) ∧
    skipped.length ≤ (encodeAll skipped).length := by
  obtain ⟨k, rfl⟩ : ∃ k, fuel = skipped.length + (k + 1) := ⟨fuel - skipped.length - 1, by omega⟩
  obtain ⟨a1, hE1, -, hrun⟩ := readSiblingWithType_run f t skipped pre rest a (k + 1)
    hfile hEnd hwf hne
  refine ⟨?_, ?_, encodeAll_length_ge skipped⟩
  · intro target post hrest hwt htyp
    have hfile1 : f.bytes = (pre ++ encodeAll skipped) ++ (target.encode ++ post) := by
      rw [hfile, hrest, List.append_assoc]
    have hread := readAtomAt_box f (pre ++ encodeAll skipped) post target hwt hfile1
    rw [List.length_append, ← hE1] at hread
    rw [hrun, readSiblingWithType_match f k a1 _ t hread htyp, hE1]
    push_cast
    rfl
  · intro e he
    rw [← hE1] at he
    exact ⟨_, by rw [hrun, readSiblingWithType_error f k a1 t e he]⟩

theorem readSiblingWithType_first_match_witness :
    readSiblingWithType fileThree 2 atomFtyp (str "moov") = .ret (.ok
      { Start := 16, End := 24, Size := 8, Typ := str "moov",
        Contents := Slice.ofBytes ([0, 0, 0, 8] ++ str "moov") }) :=
  Eq.trans
    ((readSiblingWithType_first_match fileThree atomFtyp (str "moov")
      ([0, 0, 0, 8] ++ str "ftyp") [⟨str "free", []⟩] ([0, 0, 0, 8] ++ str "moov") 2
      (by decide) (by decide) (by decide) (by decide) (by decide)).1
      ⟨str "moov", []⟩ [] (by decide) (by decide) (by decide))
    (by decide)

/-- C5: on the file `00 00 00 00 "ftypM4A "` the atom read at offset 0 has size
zero; `readSibling` of that atom succeeds and returns an atom whose `End` is
not greater than the `End` of the atom given, and `readSiblingWithType` for
`moov` does not return within any number of iterations. -/
theorem readSiblingWithType_zero_size_loops :
    readAtomAt fileZeroSize 0 = .ok atomZeroSize ∧
    readSibling fileZeroSize atomZeroSize = .ok atomZeroSize ∧
    (∀ sib, readSibling fileZeroSize atomZeroSize = .ok sib → ¬ atomZeroSize.End < sib.End) ∧
    ∀ fuel : Nat,
      readSiblingWithType fileZeroSize fuel atomZeroSize (str "moov") = .unfinished := by
  have h1 : readAtomAt fileZeroSize atomZeroSize.End = .ok atomZeroSize := by decide
  have h2 : readSibling fileZeroSize atomZeroSize = .ok atomZeroSize := by decide
  refine ⟨by decide, h2, ?_, ?_⟩
  · intro sib hs
    rw [h2] at hs
    cases hs
    decide
  · intro fuel
    induction fuel with
    | zero => rfl
    | succ n ih =>
      rw [readSiblingWithType_skip fileZeroSize n atomZeroSize atomZeroSize (str "moov") h1
        (by decide)]
      exact ih

/-! ## Auxiliary lemmas: child search -/

theorem Slice.slice_ok (s : Slice) (lo hi : Nat) (h : lo ≤ hi) (hc : hi ≤ s.cap) :
    s.slice (lo : Int) (hi : Int)
      = .ret ⟨((s.elems ++ s.spare).take hi).drop lo, (s.elems ++ s.spare).drop hi⟩ := by
  unfold Slice.slice
  have h1 : (0 : Int) ≤ lo ∧ (lo : Int) ≤ hi ∧ (hi : Int) ≤ s.cap := by omega
  simp only [h1, and_self, if_true, Int.toNat_ofNat]

theorem Slice.sliceFrom_ok (s : Slice) (lo : Nat) (h : lo ≤ s.len) :
    s.sliceFrom (lo : Int) = .ret ⟨s.elems.drop lo, s.spare⟩ := by
  unfold Slice.sliceFrom
  have h1 : (0 : Int) ≤ lo ∧ (lo : Int) ≤ s.len := by omega
  simp only [h1, and_self, if_true, Int.toNat_ofNat]

/-- The path of `parseAtom` that builds an atom, from the results of its steps. -/
theorem parseAtom_of_steps (b s4 s48 c : Slice) (off size : Int)
    (h8 : b.len ≥ SizeLen + TypeLen) (h4 : b.slice 0 4 = .ret s4)
    (hps : parseSize s4.elems = .ok size) (hle : size ≤ b.len)
    (h48 : b.slice 4 8 = .ret s48) (hc : b.slice 0 size = .ret c) :
    parseAtom b off = .ret
      { Start := off, End := int64 (off + size), Size := size, Typ := s48.elems,
        Contents := c } := by
  unfold parseAtom
  simp only [h8, if_true, h4, Run.ret_bind, hps, hle, h48, hc, parseType, Run.pure_eq]

/-- Decoding a well-formed box at the head of a buffer. -/
theorem parseAtom_box (b : Slice) (off : Int) (x : Box) (rest : List Byte) (hwf : x.wf)
    (hb : b.elems = x.encode ++ rest) :
    parseAtom b off = .ret
      { Start := off, End := int64 (off + (x.size : Int)), Size := x.size, Typ := x.typ,
        Contents := ⟨x.encode, rest ++ b.spare⟩ } := by
  obtain ⟨p, q, r, w, hbe, hval⟩ := be32_val x.size hwf.2
  have hlenE := Box.encode_length x hwf
  have hsize : 8 ≤ x.size := by simp [Box.size]
  have hlen : b.len = x.size + rest.length := by
    simp only [Slice.len, hb, List.length_append, hlenE]
  have hcap : b.len ≤ b.cap := by simp [Slice.len, Slice.cap]
  have hall : b.elems ++ b.spare = be32 x.size ++ (x.typ ++ (x.body ++ (rest ++ b.spare))) := by
    rw [hb, Box.encode]; simp only [List.append_assoc]
  have h4 := Slice.slice_ok b 0 4 (by omega) (by omega)
  have h48 := Slice.slice_ok b 4 8 (by omega) (by omega)
  have hc := Slice.slice_ok b 0 x.size (by omega) (by omega)
  have e4 : ((b.elems ++ b.spare).take 4).drop 0 = [p, q, r, w] := by
    rw [hall, hbe]; rfl
  have e48 : ((b.elems ++ b.spare).take 8).drop 4 = x.typ := by
    rw [hall, hbe]
    show List.take 4 (x.typ ++ (x.body ++ (rest ++ b.spare))) = x.typ
    rw [← hwf.1, List.take_left]
  have ec : ((b.elems ++ b.spare).take x.size).drop 0 = x.encode := by
    rw [hb, List.append_assoc, List.drop_zero, ← hlenE, List.take_left]
  have ed : (b.elems ++ b.spare).drop x.size = rest ++ b.spare := by
    rw [hb, List.append_assoc, ← hlenE, List.drop_left]
  rw [e4] at h4
  rw [e48] at h48
  rw [ec, ed] at hc
  have hps : parseSize [p, q, r, w] = .ok (x.size : Int) := by
    rw [parseSize_four, hval]
  exact parseAtom_of_steps b _ _ _ off x.size (by simp only [SizeLen, TypeLen]; omega)
    h4 hps (by omega) h48 hc

theorem findChildWithTypeLoop_exit (parent : Atom) (typ : GoString) (fuel : Nat) (i : Int)
    (h : ¬ i < parent.Contents.len) :
    findChildWithTypeLoop parent typ fuel i = .ret default := by
  cases fuel <;> simp only [findChildWithTypeLoop, h, if_false]

theorem findChildWithTypeLoop_found (parent : Atom) (typ : GoString) (fuel : Nat) (i : Int)
    (rest : Slice) (child : Atom) (h : i < parent.Contents.len)
    (hs : parent.Contents.sliceFrom i = .ret rest)
    (hp : parseAtom rest (int64 (parent.Start + i)) = .ret child)
    (hz : child.Size ≠ 0) (hc : Contains child.Typ typ = true) :
    findChildWithTypeLoop parent typ (fuel + 1) i = .ret child := by
  simp only [findChildWithTypeLoop, h, if_true, hs, Run.ret_bind, hp, hz, ne_eq,
    not_false_eq_true, hc, Run.pure_eq]

theorem findChildWithTypeLoop_next (parent : Atom) (typ : GoString) (fuel : Nat) (i : Int)
    (rest : Slice) (child : Atom) (h : i < parent.Contents.len)
    (hs : parent.Contents.sliceFrom i = .ret rest)
    (hp : parseAtom rest (int64 (parent.Start + i)) = .ret child)
    (hz : child.Size ≠ 0) (hc : Contains child.Typ typ = false) :
    findChildWithTypeLoop parent typ (fuel + 1) i
      = findChildWithTypeLoop parent typ fuel (i + child.Size) := by
  simp only [findChildWithTypeLoop, h, if_true, hs, Run.ret_bind, hp, hz, ne_eq,
    not_false_eq_true, hc, Bool.false_eq_true, if_false]

theorem findChildWithTypeLoop_resync (parent : Atom) (typ : GoString) (fuel : Nat) (i : Int)
    (rest : Slice) (child : Atom) (h : i < parent.Contents.len)
    (hs : parent.Contents.sliceFrom i = .ret rest)
    (hp : parseAtom rest (int64 (parent.Start + i)) = .ret child)
    (hz : child.Size = 0) :
    findChildWithTypeLoop parent typ (fuel + 1) i
      = findChildWithTypeLoop parent typ fuel (i + 4) := by
  simp only [findChildWithTypeLoop, h, if_true, hs, Run.ret_bind, hp, hz, ne_eq,
    not_true_eq_false, if_false]

theorem parseAtom_short (b : Slice) (off : Int) (h : ¬ b.len ≥ SizeLen + TypeLen) :
    parseAtom b off = .ret default := by
  unfold parseAtom
  simp only [h, if_false, Run.pure_eq]

theorem parseAtom_oversize (b s4 : Slice) (off size : Int)
    (h8 : b.len ≥ SizeLen + TypeLen) (h4 : b.slice 0 4 = .ret s4)
    (hps : parseSize s4.elems = .ok size) (hgt : ¬ size ≤ b.len) :
    parseAtom b off = .ret default := by
  unfold parseAtom
  simp only [h8, if_true, h4, Run.ret_bind, hps, hgt, if_false, Run.pure_eq]

/-- The function `parseAtom` never panics, and the size of the atom it returns
is between 0 and the length of the buffer. -/
theorem parseAtom_returns (b : Slice) (off : Int) :
    ∃ a, parseAtom b off = .ret a ∧ 0 ≤ a.Size ∧ a.Size ≤ b.len := by
  by_cases h8 : b.len ≥ SizeLen + TypeLen
  · have h8n : 8 ≤ b.len := h8
    have hcap : b.len ≤ b.cap := by simp [Slice.len, Slice.cap]
    have h4 := Slice.slice_ok b 0 4 (by omega) (by omega)
    have hl4 : (((b.elems ++ b.spare).take 4).drop 0).length = 4 := by
      simp only [List.drop_zero, List.length_take, List.length_append]
      simp only [Slice.len] at h8n
      omega
    obtain ⟨p, q, r, w, he⟩ : ∃ p q r w, ((b.elems ++ b.spare).take 4).drop 0 = [p, q, r, w] := by
      match hm : ((b.elems ++ b.spare).take 4).drop 0, hl4 with
      | [p, q, r, w], _ => exact ⟨p, q, r, w, rfl⟩
    rw [he] at h4
    have hps := parseSize_four p q r w
    generalize p.val * 2 ^ 24 + q.val * 2 ^ 16 + r.val * 2 ^ 8 + w.val = n at hps
    by_cases hle : (n : Int) ≤ b.len
    · have h48 := Slice.slice_ok b 4 8 (by omega) (by omega)
      have hc := Slice.slice_ok b 0 n (by omega) (by omega)
      exact ⟨_, parseAtom_of_steps b _ _ _ off n h8 h4 hps hle h48 hc, by
        show (0 : Int) ≤ (n : Int); omega, hle⟩
    · exact ⟨default, parseAtom_oversize b _ off n h8 h4 hps hle, by decide, by
        show (0 : Int) ≤ (b.len : Int); omega⟩
  · exact ⟨default, parseAtom_short b off h8, by decide, by
      show (0 : Int) ≤ (b.len : Int); omega⟩

/-- The loop of `findChildWithType` returns, without a panic, within as many
iterations as there are bytes between the index and the end of the contents. -/
theorem findChildWithTypeLoop_returns (parent : Atom) (typ : GoString) :
    ∀ (fuel : Nat) (i : Int), 0 ≤ i → (parent.Contents.len : Int) - i ≤ fuel →
      ∃ a, findChildWithTypeLoop parent typ fuel i = .ret a := by
  intro fuel
  induction fuel with
  | zero =>
    intro i _ h
    exact ⟨default, findChildWithTypeLoop_exit parent typ 0 i (by omega)⟩
  | succ fuel ih =>
    intro i h0 h
    by_cases hi : i < parent.Contents.len
    · obtain ⟨k, rfl⟩ : ∃ k : Nat, i = k := ⟨i.toNat, by omega⟩
      have hs := Slice.sliceFrom_ok parent.Contents k (by omega)
      obtain ⟨child, hp, hc0, hc1⟩ := parseAtom_returns
        ⟨parent.Contents.elems.drop k, parent.Contents.spare⟩ (int64 (parent.Start + (k : Int)))
      by_cases hz : child.Size = 0
      · rw [findChildWithTypeLoop_resync parent typ fuel k _ _ hi hs hp hz]
        exact ih _ (by omega) (by push_cast at h ⊢; omega)
      · by_cases hc : Contains child.Typ typ = true
        · exact ⟨child, findChildWithTypeLoop_found parent typ fuel k _ _ hi hs hp hz hc⟩
        · rw [findChildWithTypeLoop_next parent typ fuel k _ _ hi hs hp hz
            (by simpa using hc)]
          exact ih _ (by omega) (by push_cast at h ⊢; omega)
    · exact ⟨default, findChildWithTypeLoop_exit parent typ _ i hi⟩

/-- The function `findChildWithType` returns an atom on every input: it neither
panics nor uses up its iterations. -/
theorem findChildWithType_returns (parent : Atom) (typ : GoString) :
    ∃ a, findChildWithType parent typ = .ret a :=
  findChildWithTypeLoop_returns parent typ _ _ (by simp only [SizeLen, TypeLen]; omega)
    (by simp only [SizeLen, TypeLen]; push_cast; omega)

/-- The scan walks over a run of well-formed children none of which matches. -/
theorem findChildWithTypeLoop_run (parent : Atom) (t : GoString) :
    ∀ (skipped : List Box) (pre rest : List Byte) (fuel : Nat),
      parent.Contents.elems = pre ++ (encodeAll skipped ++ rest) →
      (∀ b ∈ skipped, b.wf) → (∀ b ∈ skipped, Contains b.typ t = false) →
      findChildWithTypeLoop parent t (skipped.length + fuel) (pre.length : Int)
        = findChildWithTypeLoop parent t fuel
            ((pre.length + (encodeAll skipped).length : Nat) : Int) := by
  intro skipped
  induction skipped with
  | nil =>
    intro pre rest fuel _ _ _
    simp [encodeAll]
  | cons b bs ih =>
    intro pre rest fuel hc hwf hne
    have hb := hwf b (List.mem_cons_self _ _)
    have hlenE := Box.encode_length b hb
    have hsize : 8 ≤ b.size := by simp [Box.size]
    have hc1 : parent.Contents.elems = pre ++ (b.encode ++ (encodeAll bs ++ rest)) := by
      rw [hc, encodeAll, List.append_assoc]
    have hlen : parent.Contents.len
        = pre.length + (b.size + ((encodeAll bs).length + rest.length)) := by
      simp only [Slice.len, hc1, List.length_append, hlenE]
    have hs := Slice.sliceFrom_ok parent.Contents pre.length (by omega)
    have hdrop : parent.Contents.elems.drop pre.length = b.encode ++ (encodeAll bs ++ rest) := by
      rw [hc1, List.drop_left]
    rw [hdrop] at hs
    have hp := parseAtom_box ⟨b.encode ++ (encodeAll bs ++ rest), parent.Contents.spare⟩
      (int64 (parent.Start + (pre.length : Int))) b (encodeAll bs ++ rest) hb rfl
    have hstep := findChildWithTypeLoop_next parent t (bs.length + fuel) (pre.length : Int)
      _ _ (by omega) hs hp
      (by show (b.size : Int) ≠ 0; omega) (hne b (List.mem_cons_self _ _))
    have hc2 : parent.Contents.elems = (pre ++ b.encode) ++ (encodeAll bs ++ rest) := by
      rw [hc1, List.append_assoc]
    have hih := ih (pre ++ b.encode) rest fuel hc2
      (fun x hx => hwf x (List.mem_cons_of_mem _ hx))
      (fun x hx => hne x (List.mem_cons_of_mem _ hx))
    have hi : ((pre.length : Int) + (b.size : Int)) = (((pre ++ b.encode).length : Nat) : Int) := by
      rw [List.length_append, hlenE]; push_cast; rfl
    have hj : (pre ++ b.encode).length + (encodeAll bs).length
        = pre.length + (encodeAll (b :: bs)).length := by
      simp only [encodeAll, List.length_append]; omega
    rw [List.length_cons, Nat.add_right_comm, hstep]
    show findChildWithTypeLoop parent t (bs.length + fuel) ((pre.length : Int) + (b.size : Int)) = _
    rw [hi, hih, hj]

theorem encodeAll_append (xs ys : List Box) :
    encodeAll (xs ++ ys) = encodeAll xs ++ encodeAll ys := by
  induction xs with
  | nil => rfl
  | cons x xs ih =>
    show x.encode ++ encodeAll (xs ++ ys) = x.encode ++ encodeAll xs ++ encodeAll ys
    rw [ih, List.append_assoc]

/-- The first child whose type contains `t`, after children that do not. -/
theorem findChildWithType_found (parent : Atom) (t : GoString) (hdr : List Byte)
    (skipped : List Box) (c : Box) (post : List Box)
    (hh : hdr.length = 8)
    (hc : parent.Contents.elems = hdr ++ encodeAll (skipped ++ c :: post))
    (hwf : ∀ b ∈ skipped ++ c :: post, b.wf)
    (hne : ∀ b ∈ skipped, Contains b.typ t = false)
    (hcont : Contains c.typ t = true) :
    findChildWithType parent t = .ret
      { Start := int64 (parent.Start + ((8 + (encodeAll skipped).length : Nat) : Int))
        End := int64 (int64 (parent.Start + ((8 + (encodeAll skipped).length : Nat) : Int))
          + (c.size : Int))
        Size := c.size
        Typ := c.typ
        Contents := ⟨c.encode, encodeAll post ++ parent.Contents.spare⟩ } := by
  have hlenS := encodeAll_length_ge skipped
  have hc1 : parent.Contents.elems = hdr ++ (encodeAll skipped ++ encodeAll (c :: post)) := by
    rw [hc, encodeAll_append]
  have hlen : parent.Contents.len
      = 8 + ((encodeAll skipped).length + (encodeAll (c :: post)).length) := by
    simp only [Slice.len, hc1, List.length_append, hh]
  have hstart : (((SizeLen + TypeLen : Nat) : Nat) : Int) = (hdr.length : Int) := by
    rw [hh]; rfl
  have hwfS : ∀ b ∈ skipped, b.wf := fun b hb => hwf b (List.mem_append_left _ hb)
  have hcw : c.wf := hwf c (List.mem_append_right _ (List.mem_cons_self _ _))
  have hlenE := Box.encode_length c hcw
  have hsize : 8 ≤ c.size := by simp [Box.size]
  obtain ⟨k, hk⟩ : ∃ k, parent.Contents.len = skipped.length + (k + 1) :=
    ⟨parent.Contents.len - skipped.length - 1, by omega⟩
  have hrun := findChildWithTypeLoop_run parent t skipped hdr (encodeAll (c :: post)) (k + 1)
    hc1 hwfS hne
  have hlen2 : parent.Contents.len = hdr.length + (encodeAll skipped).length
      + (c.size + (encodeAll post).length) := by
    rw [hlen, hh]; simp only [encodeAll, List.length_append, hlenE]; omega
  have hs := Slice.sliceFrom_ok parent.Contents (hdr.length + (encodeAll skipped).length)
    (by omega)
  have hdrop : parent.Contents.elems.drop (hdr.length + (encodeAll skipped).length)
      = c.encode ++ encodeAll post := by
    rw [hc1, ← List.append_assoc, ← List.length_append, List.drop_left]; rfl
  rw [hdrop] at hs
  have hp := parseAtom_box ⟨c.encode ++ encodeAll post, parent.Contents.spare⟩
    (int64 (parent.Start + ((hdr.length + (encodeAll skipped).length : Nat) : Int)))
    c (encodeAll post) hcw rfl
  have hfound := findChildWithTypeLoop_found parent t k _ _ _ (by omega) hs hp
    (by show (c.size : Int) ≠ 0; omega) hcont
  unfold findChildWithType
  rw [hstart, hk, hrun, hfound, hh]

/-- No child's type contains `t`: the scan ends with the sentinel. -/
theorem findChildWithType_absent (parent : Atom) (t : GoString) (hdr : List Byte)
    (skipped : List Box)
    (hh : hdr.length = 8)
    (hc : parent.Contents.elems = hdr ++ encodeAll skipped)
    (hwf : ∀ b ∈ skipped, b.wf)
    (hne : ∀ b ∈ skipped, Contains b.typ t = false) :
    findChildWithType parent t = .ret default := by
  have hlenS := encodeAll_length_ge skipped
  have hc1 : parent.Contents.elems = hdr ++ (encodeAll skipped ++ []) := by
    rw [hc, List.append_nil]
  have hlen : parent.Contents.len = 8 + (encodeAll skipped).length := by
    simp only [Slice.len, hc, List.length_append, hh]
  have hstart : (((SizeLen + TypeLen : Nat) : Nat) : Int) = (hdr.length : Int) := by
    rw [hh]; rfl
  obtain ⟨k, hk⟩ : ∃ k, parent.Contents.len = skipped.length + k :=
    ⟨parent.Contents.len - skipped.length, by omega⟩
  have hrun := findChildWithTypeLoop_run parent t skipped hdr [] k hc1 hwf hne
  unfold findChildWithType
  rw [hstart, hk, hrun, findChildWithTypeLoop_exit]
  rw [hlen, hh]; omega

/-- C6: for a parent whose contents are an 8-byte header followed by well-formed
children, `findChildWithType(parent, t)` returns the first child whose type
contains `t` (the children before it do not contain `t`), as the atom at that
child's offset with its size, type and bytes; it returns the zero-size sentinel
`Atom{}` when no child's type contains `t`; and a type made of any one byte
followed by `nam` contains `nam` without being equal to it. -/
theorem findChildWithType_first_match (parent : Atom) (t : GoString) (hdr : List Byte)
    (skipped rest : List Box)
    (hh : hdr.length = 8)
    (hc : parent.Contents.elems = hdr ++ encodeAll (skipped ++ rest))
    (hwf : ∀ b ∈ skipped ++ rest, b.wf)
    (hne : ∀ b ∈ skipped, Contains b.typ t = false) :
    (∀ (c : Box) (post : List Box), rest = c :: post → Contains c.typ t = true →
      findChildWithType parent t = .ret
        { Start := int64 (parent.Start + ((8 + (encodeAll skipped).length : Nat) : Int))
          End := int64 (int64 (parent.Start + ((8 + (encodeAll skipped).length : Nat) : Int))
            + (c.size : Int))
          Size := c.size
          Typ := c.typ
          Contents := ⟨c.encode, encodeAll post ++ parent.Contents.spare⟩ }) ∧
    (rest = [] → findChildWithType parent t = .ret ⟨0, 0, 0, [], Slice.nil⟩) ∧
    (∀ p : Byte, Contains (p :: str "nam") (str "nam") = true ∧ p :: str "nam" ≠ str "nam") := by
  refine ⟨?_, ?_, ?_⟩
  · intro c post hrest hcont
    subst hrest
    exact findChildWithType_found parent t hdr skipped c post hh hc hwf hne hcont
  · intro hrest
    subst hrest
    rw [List.append_nil] at hc hwf
    exact findChildWithType_absent parent t hdr skipped hh hc hwf hne
  · intro p
    refine ⟨?_, ?_⟩
    · simp [Contains, startsWith, str]
    · intro h
      have := congrArg List.length h
      simp [str] at this

theorem findChildWithType_first_match_witness :
    findChildWithType ilstTwo (str "nam") = .ret
      { Start := 116, End := 140, Size := 24, Typ := 0xA9 :: str "nam",
        Contents := Slice.ofBytes ([0, 0, 0, 24] ++ (0xA9 :: str "nam") ++ List.replicate 16 0) } :=
  Eq.trans
    ((findChildWithType_first_match ilstTwo (str "nam") ilstHeader [⟨str "free", []⟩]
      [⟨0xA9 :: str "nam", List.replicate 16 0⟩] (by decide) (by decide) (by decide)
      (by decide)).1 ⟨0xA9 :: str "nam", List.replicate 16 0⟩ [] rfl (by decide))
    (by decide)

/-- C7: for a parent whose contents have at most 8 bytes (no room for a child:
exactly the header, a cut-off header, or nothing) `findChildWithType` returns
the zero-size sentinel `Atom{}`, without a panic, for every target. -/
theorem findChildWithType_no_children (parent : Atom) (t : GoString)
    (h : parent.Contents.len ≤ 8) :
    findChildWithType parent t = .ret ⟨0, 0, 0, [], Slice.nil⟩ := by
  unfold findChildWithType
  rw [findChildWithTypeLoop_exit]
  · rfl
  · simp only [SizeLen, TypeLen]; omega

theorem findChildWithType_no_children_witness :
    findChildWithType atomShort (str "nam") = .ret ⟨0, 0, 0, [], Slice.nil⟩ ∧
    findChildWithType default (str "nam") = .ret ⟨0, 0, 0, [], Slice.nil⟩ :=
  ⟨findChildWithType_no_children atomShort (str "nam") (by decide),
    findChildWithType_no_children default (str "nam") (by decide)⟩

/-! ## Auxiliary lemmas: tag decoder -/

theorem getMetadataValueFromDataAtom_ok (a : Atom) (h : 24 ≤ a.Contents.len) :
    getMetadataValueFromDataAtom a = .ret ⟨a.Contents.elems.drop 24, a.Contents.spare⟩ := by
  have h1 := Slice.sliceFrom_ok a.Contents 8 (by omega)
  have h2 := Slice.sliceFrom_ok ⟨a.Contents.elems.drop 8, a.Contents.spare⟩ 16
    (by simp only [Slice.len, List.length_drop] at h ⊢; omega)
  rw [Nat.cast_ofNat] at h1 h2
  simp only [getMetadataValueFromDataAtom, h1, Run.ret_bind, h2, Run.pure_eq, List.drop_drop]

theorem getMetadataValueFromDataAtom_short (a : Atom) (h : a.Contents.len < 24) :
    getMetadataValueFromDataAtom a = .panicked := by
  by_cases h8 : 8 ≤ a.Contents.len
  · have h1 := Slice.sliceFrom_ok a.Contents 8 h8
    rw [Nat.cast_ofNat] at h1
    have h2 : (⟨a.Contents.elems.drop 8, a.Contents.spare⟩ : Slice).sliceFrom 16 = .panicked := by
      unfold Slice.sliceFrom
      have : ¬ ((0 : Int) ≤ 16 ∧ (16 : Int)
          ≤ ((⟨a.Contents.elems.drop 8, a.Contents.spare⟩ : Slice).len : Int)) := by
        simp only [Slice.len, List.length_drop] at h ⊢; omega
      simp only [this, if_false]
    simp only [getMetadataValueFromDataAtom, h1, Run.ret_bind, h2, Run.panicked_bind]
  · have h1 : a.Contents.sliceFrom 8 = .panicked := by
      unfold Slice.sliceFrom
      have : ¬ ((0 : Int) ≤ 8 ∧ (8 : Int) ≤ (a.Contents.len : Int)) := by omega
      simp only [this, if_false]
    simp only [getMetadataValueFromDataAtom, h1, Run.panicked_bind]

theorem getTitleMetadata_absent (ilstAtom a : Atom)
    (h : findChildWithType ilstAtom (str "nam") = .ret a) (hs : ¬ a.Size > 0) :
    getTitleMetadata ilstAtom = .ret [] := by
  simp only [getTitleMetadata, h, Run.ret_bind, hs, if_false, Run.pure_eq]

theorem getTitleMetadata_present (ilstAtom a : Atom) (v : Run Slice)
    (h : findChildWithType ilstAtom (str "nam") = .ret a) (hs : a.Size > 0)
    (hv : getMetadataValueFromDataAtom a = v) :
    getTitleMetadata ilstAtom = v >>= fun contents => .ret contents.toString := by
  simp only [getTitleMetadata, h, Run.ret_bind, hs, if_true, hv, Run.pure_eq]

theorem getArtistMetadata_absent (ilstAtom a : Atom)
    (h : findChildWithType ilstAtom (str "ART") = .ret a) (hs : ¬ a.Size > 0) :
    getArtistMetadata ilstAtom = .ret [] := by
  simp only [getArtistMetadata, h, Run.ret_bind, hs, if_false, Run.pure_eq]

theorem getArtistMetadata_present (ilstAtom a : Atom) (v : Run Slice)
    (h : findChildWithType ilstAtom (str "ART") = .ret a) (hs : a.Size > 0)
    (hv : getMetadataValueFromDataAtom a = v) :
    getArtistMetadata ilstAtom = v >>= fun contents => .ret contents.toString := by
  simp only [getArtistMetadata, h, Run.ret_bind, hs, if_true, hv, Run.pure_eq]

theorem getArtistSortMetadata_absent (ilstAtom a : Atom)
    (h : findChildWithType ilstAtom (str "soar") = .ret a) (hs : ¬ a.Size > 0) :
    getArtistSortMetadata ilstAtom = .ret [] := by
  simp only [getArtistSortMetadata, h, Run.ret_bind, hs, if_false, Run.pure_eq]

theorem getArtistSortMetadata_present (ilstAtom a : Atom) (v : Run Slice)
    (h : findChildWithType ilstAtom (str "soar") = .ret a) (hs : a.Size > 0)
    (hv : getMetadataValueFromDataAtom a = v) :
    getArtistSortMetadata ilstAtom = v >>= fun contents => .ret contents.toString := by
  simp only [getArtistSortMetadata, h, Run.ret_bind, hs, if_true, hv, Run.pure_eq]

theorem getAlbumMetadata_absent (ilstAtom a : Atom)
    (h : findChildWithType ilstAtom (str "alb") = .ret a) (hs : ¬ a.Size > 0) :
    getAlbumMetadata ilstAtom = .ret [] := by
  simp only [getAlbumMetadata, h, Run.ret_bind, hs, if_false, Run.pure_eq]

theorem getAlbumMetadata_present (ilstAtom a : Atom) (v : Run Slice)
    (h : findChildWithType ilstAtom (str "alb") = .ret a) (hs : a.Size > 0)
    (hv : getMetadataValueFromDataAtom a = v) :
    getAlbumMetadata ilstAtom = v >>= fun contents => .ret contents.toString := by
  simp only [getAlbumMetadata, h, Run.ret_bind, hs, if_true, hv, Run.pure_eq]

theorem getAlbumSortMetadata_absent (ilstAtom a : Atom)
    (h : findChildWithType ilstAtom (str "soal") = .ret a) (hs : ¬ a.Size > 0) :
    getAlbumSortMetadata ilstAtom = .ret [] := by
  simp only [getAlbumSortMetadata, h, Run.ret_bind, hs, if_false, Run.pure_eq]

theorem getAlbumSortMetadata_present (ilstAtom a : Atom) (v : Run Slice)
    (h : findChildWithType ilstAtom (str "soal") = .ret a) (hs : a.Size > 0)
    (hv : getMetadataValueFromDataAtom a = v) :
    getAlbumSortMetadata ilstAtom = v >>= fun contents => .ret contents.toString := by
  simp only [getAlbumSortMetadata, h, Run.ret_bind, hs, if_true, hv, Run.pure_eq]

theorem getYearMetadata_absent (ilstAtom a : Atom)
    (h : findChildWithType ilstAtom (str "day") = .ret a) (hs : ¬ a.Size > 0) :
    getYearMetadata ilstAtom = .ret [] := by
  simp only [getYearMetadata, h, Run.ret_bind, hs, if_false, Run.pure_eq]

theorem getYearMetadata_present (ilstAtom a : Atom) (v : Run Slice)
    (h : findChildWithType ilstAtom (str "day") = .ret a) (hs : a.Size > 0)
    (hv : getMetadataValueFromDataAtom a = v) :
    getYearMetadata ilstAtom = v >>= fun contents => .ret contents.toString := by
  simp only [getYearMetadata, h, Run.ret_bind, hs, if_true, hv, Run.pure_eq]

theorem getCommentMetadata_absent (ilstAtom a : Atom)
    (h : findChildWithType ilstAtom (str "cmt") = .ret a) (hs : ¬ a.Size > 0) :
    getCommentMetadata ilstAtom = .ret [] := by
  simp only [getCommentMetadata, h, Run.ret_bind, hs, if_false, Run.pure_eq]

theorem getCommentMetadata_present (ilstAtom a : Atom) (v : Run Slice)
    (h : findChildWithType ilstAtom (str "cmt") = .ret a) (hs : a.Size > 0)
    (hv : getMetadataValueFromDataAtom a = v) :
    getCommentMetadata ilstAtom = v >>= fun contents => .ret contents.toString := by
  simp only [getCommentMetadata, h, Run.ret_bind, hs, if_true, hv, Run.pure_eq]

theorem getLyricsMetadata_absent (ilstAtom a : Atom)
    (h : findChildWithType ilstAtom (str "lyr") = .ret a) (hs : ¬ a.Size > 0) :
    getLyricsMetadata ilstAtom = .ret [] := by
  simp only [getLyricsMetadata, h, Run.ret_bind, hs, if_false, Run.pure_eq]

theorem getLyricsMetadata_present (ilstAtom a : Atom) (v : Run Slice)
    (h : findChildWithType ilstAtom (str "lyr") = .ret a) (hs : a.Size > 0)
    (hv : getMetadataValueFromDataAtom a = v) :
    getLyricsMetadata ilstAtom = v >>= fun contents => .ret contents.toString := by
  simp only [getLyricsMetadata, h, Run.ret_bind, hs, if_true, hv, Run.pure_eq]

theorem getTrackMetadata_absent (ilstAtom a : Atom)
    (h : findChildWithType ilstAtom (str "trkn") = .ret a) (hs : ¬ a.Size > 0) :
    getTrackMetadata ilstAtom = .ret [] := by
  simp only [getTrackMetadata, h, Run.ret_bind, hs, if_false, Run.pure_eq]

theorem getGenreMetadata_absent (ilstAtom a0 a1 : Atom)
    (h0 : findChildWithType ilstAtom (str "gnre") = .ret a0) (hs0 : a0.Size < 1)
    (h1 : findChildWithType ilstAtom (str "gen") = .ret a1) (hs1 : ¬ a1.Size > 0) :
    getGenreMetadata ilstAtom = .ret [] := by
  simp only [getGenreMetadata, h0, Run.ret_bind, hs0, if_true, h1, hs1, if_false, Run.pure_eq]

/-- C8: `parse` panics on an `ilst` atom whose title child is a bare 8-byte
header: `findChildWithType` returns that child (`Size` 8), and
`getMetadataValueFromDataAtom` slices `Contents[8:][16:]` out of range, so no
`Metadata` record is returned; `getTrackMetadata` panics on a `trkn` child
whose payload has 2 bytes and nothing behind it in the buffer. -/
theorem parse_panics_on_short_child (Base Dir : GoString → GoString) (path : GoString) :
    findChildWithType ilstBareTitle (str "nam") = .ret
      { Start := 108, End := 116, Size := 8, Typ := 0xA9 :: str "nam",
        Contents := Slice.ofBytes ([0, 0, 0, 8] ++ (0xA9 :: str "nam")) } ∧
    getTitleMetadata ilstBareTitle = .panicked ∧
    parse Base Dir ilstBareTitle path = .panicked ∧
    getTrackMetadata ilstShortTrack = .panicked := by
  have h : getTitleMetadata ilstBareTitle = .panicked := by decide
  refine ⟨by decide, h, ?_, by decide⟩
  simp only [parse, h, Run.panicked_bind]

/-- C9: for an `ilst` atom whose contents are an 8-byte header and one child of
type `0xA9 "nam"` made of its 8-byte header (size field `24 + len(P)`), a
16-byte `data` sub-header and the payload `P`, `parse` returns a record with
`Title = P` and every other tag field empty. -/
theorem parse_single_title (Base Dir : GoString → GoString) (ilstAtom : Atom)
    (path : GoString) (hdr sub P : List Byte)
    (hh : hdr.length = 8) (hs : sub.length = 16) (hP : 24 + P.length < 2 ^ 32)
    (hc : ilstAtom.Contents.elems
      = hdr ++ (be32 (24 + P.length) ++ (0xA9 :: str "nam") ++ sub ++ P)) :
    parse Base Dir ilstAtom path = .ret
      { Title := P, Artist := [], ArtistSort := [], Album := [], AlbumSort := [],
        Year := [], Track := [], Genre := [], Comment := [], Lyrics := [],
        FileBase := Base path, FileDir := Dir path } := by
  have hsize : (⟨0xA9 :: str "nam", sub ++ P⟩ : Box).size = 24 + P.length := by
    simp only [Box.size, List.length_append, hs]; omega
  have hwfb : (⟨0xA9 :: str "nam", sub ++ P⟩ : Box).wf := ⟨rfl, by rw [hsize]; exact hP⟩
  have henc : (⟨0xA9 :: str "nam", sub ++ P⟩ : Box).encode
      = be32 (24 + P.length) ++ (0xA9 :: str "nam") ++ sub ++ P := by
    simp only [Box.encode, hsize, List.append_assoc]
  have hc1 : ilstAtom.Contents.elems
      = hdr ++ encodeAll ([] ++ (⟨0xA9 :: str "nam", sub ++ P⟩ : Box) :: []) := by
    rw [hc, ← henc]; simp only [List.nil_append, encodeAll, List.append_nil]
  have hc2 : ilstAtom.Contents.elems
      = hdr ++ encodeAll [(⟨0xA9 :: str "nam", sub ++ P⟩ : Box)] := hc1
  have hwf1 : ∀ b ∈ [(⟨0xA9 :: str "nam", sub ++ P⟩ : Box)], b.wf := by
    intro b hb; rw [List.mem_singleton] at hb; rw [hb]; exact hwfb
  have hd : (default : Atom).Size = 0 := rfl
  have hnone : Contains (0xA9 :: str "nam") (str "ART") = false ∧
      Contains (0xA9 :: str "nam") (str "soar") = false ∧
      Contains (0xA9 :: str "nam") (str "alb") = false ∧
      Contains (0xA9 :: str "nam") (str "soal") = false ∧
      Contains (0xA9 :: str "nam") (str "day") = false ∧
      Contains (0xA9 :: str "nam") (str "trkn") = false ∧
      Contains (0xA9 :: str "nam") (str "cmt") = false ∧
      Contains (0xA9 :: str "nam") (str "lyr") = false ∧
      Contains (0xA9 :: str "nam") (str "gnre") = false ∧
      Contains (0xA9 :: str "nam") (str "gen") = false := by decide
  have hfound := findChildWithType_found ilstAtom (str "nam") hdr [] _ [] hh hc1 hwf1
    (by intro b hb; cases hb)
    (by show Contains (0xA9 :: str "nam") (str "nam") = true; decide)
  have hval := getMetadataValueFromDataAtom_ok
    { Start := int64 (ilstAtom.Start + ((8 + (encodeAll []).length : Nat) : Int))
      End := int64 (int64 (ilstAtom.Start + ((8 + (encodeAll []).length : Nat) : Int))
        + ((⟨0xA9 :: str "nam", sub ++ P⟩ : Box).size : Int))
      Size := (⟨0xA9 :: str "nam", sub ++ P⟩ : Box).size
      Typ := 0xA9 :: str "nam"
      Contents := ⟨(⟨0xA9 :: str "nam", sub ++ P⟩ : Box).encode,
        encodeAll [] ++ ilstAtom.Contents.spare⟩ }
    (by simp only [Slice.len, Box.encode_length _ hwfb, hsize]; omega)
  have hdrop : (⟨0xA9 :: str "nam", sub ++ P⟩ : Box).encode.drop 24 = P := by
    have h24 : (be32 (24 + P.length) ++ (0xA9 :: str "nam") ++ sub).length = 24 := by
      simp only [List.length_append, be32_length, hs]; rfl
    rw [henc]
    exact List.drop_left' h24
  have hTitle : getTitleMetadata ilstAtom = .ret P := by
    rw [getTitleMetadata_present ilstAtom _ _ hfound
      (by show ((⟨0xA9 :: str "nam", sub ++ P⟩ : Box).size : Int) > 0; rw [hsize]; omega) hval]
    simp only [Run.ret_bind, Slice.toString, hdrop]
  have hArtist : getArtistMetadata ilstAtom = .ret [] :=
    getArtistMetadata_absent ilstAtom default
      (findChildWithType_absent ilstAtom (str "ART") hdr _ hh hc2 hwf1
        (by intro b hb; rw [List.mem_singleton] at hb; rw [hb]; exact hnone.1))
      (by rw [hd]; decide)
  have hArtistSort : getArtistSortMetadata ilstAtom = .ret [] :=
    getArtistSortMetadata_absent ilstAtom default
      (findChildWithType_absent ilstAtom (str "soar") hdr _ hh hc2 hwf1
        (by intro b hb; rw [List.mem_singleton] at hb; rw [hb]; exact hnone.2.1))
      (by rw [hd]; decide)
  have hAlbum : getAlbumMetadata ilstAtom = .ret [] :=
    getAlbumMetadata_absent ilstAtom default
      (findChildWithType_absent ilstAtom (str "alb") hdr _ hh hc2 hwf1
        (by intro b hb; rw [List.mem_singleton] at hb; rw [hb]; exact hnone.2.2.1))
      (by rw [hd]; decide)
  have hAlbumSort : getAlbumSortMetadata ilstAtom = .ret [] :=
    getAlbumSortMetadata_absent ilstAtom default
      (findChildWithType_absent ilstAtom (str "soal") hdr _ hh hc2 hwf1
        (by intro b hb; rw [List.mem_singleton] at hb; rw [hb]; exact hnone.2.2.2.1))
      (by rw [hd]; decide)
  have hYear : getYearMetadata ilstAtom = .ret [] :=
    getYearMetadata_absent ilstAtom default
      (findChildWithType_absent ilstAtom (str "day") hdr _ hh hc2 hwf1
        (by intro b hb; rw [List.mem_singleton] at hb; rw [hb]; exact hnone.2.2.2.2.1))
      (by rw [hd]; decide)
  have hTrack : getTrackMetadata ilstAtom = .ret [] :=
    getTrackMetadata_absent ilstAtom default
      (findChildWithType_absent ilstAtom (str "trkn") hdr _ hh hc2 hwf1
        (by intro b hb; rw [List.mem_singleton] at hb; rw [hb]; exact hnone.2.2.2.2.2.1))
      (by rw [hd]; decide)
  have hComment : getCommentMetadata ilstAtom = .ret [] :=
    getCommentMetadata_absent ilstAtom default
      (findChildWithType_absent ilstAtom (str "cmt") hdr _ hh hc2 hwf1
        (by intro b hb; rw [List.mem_singleton] at hb; rw [hb]; exact hnone.2.2.2.2.2.2.1))
      (by rw [hd]; decide)
  have hLyrics : getLyricsMetadata ilstAtom = .ret [] :=
    getLyricsMetadata_absent ilstAtom default
      (findChildWithType_absent ilstAtom (str "lyr") hdr _ hh hc2 hwf1
        (by intro b hb; rw [List.mem_singleton] at hb; rw [hb]; exact hnone.2.2.2.2.2.2.2.1))
      (by rw [hd]; decide)
  have hGenre : getGenreMetadata ilstAtom = .ret [] :=
    getGenreMetadata_absent ilstAtom default default
      (findChildWithType_absent ilstAtom (str "gnre") hdr _ hh hc2 hwf1
        (by intro b hb; rw [List.mem_singleton] at hb; rw [hb]; exact hnone.2.2.2.2.2.2.2.2.1))
      (by rw [hd]; decide)
      (findChildWithType_absent ilstAtom (str "gen") hdr _ hh hc2 hwf1
        (by intro b hb; rw [List.mem_singleton] at hb; rw [hb]; exact hnone.2.2.2.2.2.2.2.2.2))
      (by rw [hd]; decide)
  simp only [parse, hTitle, hArtist, hArtistSort, hAlbum, hAlbumSort, hYear, hTrack, hGenre,
    hComment, hLyrics, Run.ret_bind, Run.pure_eq]

theorem parse_single_title_witness :
    parse id id ilstTestSong (str "song.m4a") = .ret
      { Title := str "Test Song", Artist := [], ArtistSort := [], Album := [], AlbumSort := [],
        Year := [], Track := [], Genre := [], Comment := [], Lyrics := [],
        FileBase := str "song.m4a", FileDir := str "song.m4a" } :=
  parse_single_title id id ilstTestSong (str "song.m4a") ([0, 0, 0, 41] ++ str "ilst")
    ([0, 0, 0, 25] ++ str "data" ++ [0, 0, 0, 1, 0, 0, 0, 0]) (str "Test Song")
    (by decide) (by decide) (by decide) (by decide)

/-! ## Auxiliary lemmas: `FormatUint` -/

theorem digit_val (k : Nat) (hk : k < 10) :
    (Fin.ofNat ((ch '0').val + k) : Byte).val = 48 + k := by
  show ((ch '0').val + k) % 256 = 48 + k
  have h0 : (ch '0').val = 48 := rfl
  rw [h0]
  omega

theorem formatBits_value : ∀ (fuel n : Nat) (acc : GoString), n < fuel →
    (formatBits fuel n acc).foldl (fun v c => v * 10 + (c.val - (ch '0').val)) 0
      = acc.foldl (fun v c => v * 10 + (c.val - (ch '0').val)) n
  | 0, n, _, h => absurd h (Nat.not_lt_zero n)
  | fuel + 1, n, acc, h => by
    have hd := digit_val (n % 10) (Nat.mod_lt _ (by norm_num))
    have hd1 : (Fin.ofNat (48 + n % 10) : Byte).val = 48 + n % 10 := hd
    have h0 : (ch '0').val = 48 := rfl
    unfold formatBits
    by_cases hz : n / 10 = 0
    · simp only [hz, if_true, List.foldl_cons, h0, hd1]
      congr 1
      omega
    · simp only [hz, if_false]
      rw [formatBits_value fuel (n / 10) _ (by omega)]
      simp only [List.foldl_cons, h0, hd1]
      congr 1
      omega

theorem formatBits_digits : ∀ (fuel n : Nat) (acc : GoString) (c : Byte),
    c ∈ formatBits fuel n acc → (48 ≤ c.val ∧ c.val ≤ 57) ∨ c ∈ acc
  | 0, _, _, _, h => Or.inr h
  | fuel + 1, n, acc, c, h => by
    have hd := digit_val (n % 10) (Nat.mod_lt _ (by norm_num))
    have hm : n % 10 < 10 := Nat.mod_lt _ (by norm_num)
    unfold formatBits at h
    by_cases hz : n / 10 = 0
    · simp only [hz, if_true, List.mem_cons] at h
      rcases h with h | h
      · left; rw [h, hd]; omega
      · exact Or.inr h
    · simp only [hz, if_false] at h
      rcases formatBits_digits fuel (n / 10) _ c h with h1 | h1
      · exact Or.inl h1
      · rw [List.mem_cons] at h1
        rcases h1 with h1 | h1
        · left; rw [h1, hd]; omega
        · exact Or.inr h1

theorem formatBits_head : ∀ (fuel n : Nat) (acc : GoString), n < fuel → n ≠ 0 →
    ∃ d rest, formatBits fuel n acc = d :: rest ∧ d.val ≠ 48
  | 0, n, _, h, _ => absurd h (Nat.not_lt_zero n)
  | fuel + 1, n, acc, h, hn => by
    have hd := digit_val (n % 10) (Nat.mod_lt _ (by norm_num))
    unfold formatBits
    by_cases hz : n / 10 = 0
    · simp only [hz, if_true]
      exact ⟨_, _, rfl, by rw [hd]; omega⟩
    · simp only [hz, if_false]
      exact formatBits_head fuel (n / 10) _ (by omega) hz

theorem Uint32_four (p0 p1 p2 p3 : Byte) (spare : List Byte) :
    Uint32 ⟨[p0, p1, p2, p3], spare⟩
      = .ret (p0.val * 2 ^ 24 + p1.val * 2 ^ 16 + p2.val * 2 ^ 8 + p3.val) := by
  simp only [Uint32, Slice.len, List.length_cons, List.length_nil, beValue]
  norm_num
  ring

theorem getTrackMetadata_present (ilstAtom a : Atom) (v c04 : Slice) (n : Nat)
    (h : findChildWithType ilstAtom (str "trkn") = .ret a) (hs : a.Size > 0)
    (hv : getMetadataValueFromDataAtom a = .ret v) (hc : v.slice 0 4 = .ret c04)
    (hu : Uint32 c04 = .ret n) :
    getTrackMetadata ilstAtom = .ret (FormatUint n) := by
  simp only [getTrackMetadata, h, Run.ret_bind, hs, if_true, hv, hc, hu, Run.pure_eq]

/-- C10: when the child that `findChildWithType(ilst, "trkn")` finds has, after
its 8-byte header and the 16-byte `data` sub-header, a payload of at least 4
bytes `p0 p1 p2 p3 ...`, `getTrackMetadata` returns the decimal text of the
big-endian 32-bit value of `p0 p1 p2 p3`, whatever follows them: the text is
made of digits only, reads back as that value, and starts with `0` only when it
is the text `0`. -/
theorem getTrackMetadata_decodes (ilstAtom child : Atom) (h24 : List Byte)
    (p0 p1 p2 p3 : Byte) (tail : List Byte)
    (hfind : findChildWithType ilstAtom (str "trkn") = .ret child)
    (hsize : child.Size > 0)
    (hlen : h24.length = 24)
    (hc : child.Contents.elems = h24 ++ p0 :: p1 :: p2 :: p3 :: tail) :
    getTrackMetadata ilstAtom
      = .ret (FormatUint (p0.val * 2 ^ 24 + p1.val * 2 ^ 16 + p2.val * 2 ^ 8 + p3.val)) ∧
    decimalValue (FormatUint (p0.val * 2 ^ 24 + p1.val * 2 ^ 16 + p2.val * 2 ^ 8 + p3.val))
      = p0.val * 2 ^ 24 + p1.val * 2 ^ 16 + p2.val * 2 ^ 8 + p3.val ∧
    (∀ c ∈ FormatUint (p0.val * 2 ^ 24 + p1.val * 2 ^ 16 + p2.val * 2 ^ 8 + p3.val),
      (ch '0').val ≤ c.val ∧ c.val ≤ (ch '9').val) ∧
    FormatUint (p0.val * 2 ^ 24 + p1.val * 2 ^ 16 + p2.val * 2 ^ 8 + p3.val) ≠ [] ∧
    ((FormatUint (p0.val * 2 ^ 24 + p1.val * 2 ^ 16 + p2.val * 2 ^ 8 + p3.val)).head?
        = some (ch '0') →
      FormatUint (p0.val * 2 ^ 24 + p1.val * 2 ^ 16 + p2.val * 2 ^ 8 + p3.val) = [ch '0']) := by
  have hdrop : child.Contents.elems.drop 24 = p0 :: p1 :: p2 :: p3 :: tail := by
    rw [hc]; exact List.drop_left' hlen
  have hv := getMetadataValueFromDataAtom_ok child
    (by simp only [Slice.len, hc, List.length_append, hlen, List.length_cons]; omega)
  rw [hdrop] at hv
  have hs : (⟨p0 :: p1 :: p2 :: p3 :: tail, child.Contents.spare⟩ : Slice).slice 0 4
      = .ret ⟨[p0, p1, p2, p3], tail ++ child.Contents.spare⟩ :=
    Slice.slice_ok ⟨p0 :: p1 :: p2 :: p3 :: tail, child.Contents.spare⟩ 0 4
      (by omega) (by simp only [Slice.cap, List.length_cons]; omega)
  have hget := getTrackMetadata_present ilstAtom child _ _ _ hfind hsize hv hs
    (Uint32_four p0 p1 p2 p3 _)
  generalize p0.val * 2 ^ 24 + p1.val * 2 ^ 16 + p2.val * 2 ^ 8 + p3.val = n at hget ⊢
  have h9 : (ch '9').val = 57 := rfl
  have h0 : (ch '0').val = 48 := rfl
  refine ⟨hget, ?_, ?_, ?_, ?_⟩
  · exact formatBits_value (n + 1) n [] (by omega)
  · intro c hcm
    rcases formatBits_digits (n + 1) n [] c hcm with h | h
    · rw [h0, h9]; exact h
    · cases h
  · by_cases hn : n = 0
    · subst hn; decide
    · obtain ⟨d, rest, he, -⟩ := formatBits_head (n + 1) n [] (by omega) hn
      unfold FormatUint
      rw [he]
      exact List.cons_ne_nil _ _
  · intro hh
    by_cases hn : n = 0
    · subst hn; rfl
    · obtain ⟨d, rest, he, hd⟩ := formatBits_head (n + 1) n [] (by omega) hn
      unfold FormatUint at hh
      rw [he, List.head?_cons, Option.some.injEq] at hh
      rw [hh] at hd
      exact absurd h0 hd

theorem getTrackMetadata_decodes_witness :
    getTrackMetadata ilstTrack = .ret (str "5") :=
  Eq.trans
    (getTrackMetadata_decodes ilstTrack atomTrack
      ([0, 0, 0, 30] ++ str "trkn" ++ ([0, 0, 0, 22] ++ str "data" ++ List.replicate 8 0))
      0 0 0 5 [0, 0] (by decide) (by decide) (by decide) (by decide)).1
    (by decide)

/-! ## Auxiliary lemmas: genres -/

theorem PredefinedGenre_named : ∀ k : Fin 80, PredefinedGenre ((k.val : Nat) : Int) ≠ [] := by
  decide

theorem PredefinedGenre_ne_nil_iff (pg : Int) :
    PredefinedGenre pg ≠ [] ↔ 0 ≤ pg ∧ pg ≤ 79 := by
  by_cases h0 : 0 ≤ pg
  · obtain ⟨k, rfl⟩ : ∃ k : Nat, pg = k := ⟨pg.toNat, by omega⟩
    by_cases hk : k < 80
    · have := PredefinedGenre_named ⟨k, hk⟩
      simp only at this
      constructor
      · intro _; omega
      · intro _; exact this
    · have hget : genreNames.getD k "" = "" :=
        List.getD_eq_default _ _ (by show 80 ≤ k; omega)
      have hnil : PredefinedGenre (k : Int) = [] := by
        simp only [PredefinedGenre, h0, if_true, Int.toNat_ofNat, hget]
        rfl
      constructor
      · intro h; exact absurd hnil h
      · intro h; omega
  · have hnil : PredefinedGenre pg = [] := by
      simp only [PredefinedGenre, h0, if_false]
    constructor
    · intro h; exact absurd hnil h
    · intro h; omega

theorem Uint16_two (p0 p1 : Byte) (tail spare : List Byte) :
    Uint16 ⟨p0 :: p1 :: tail, spare⟩ = .ret (p0.val * 256 + p1.val) := by
  simp only [Uint16, Slice.len, List.length_cons, beValue, List.take]
  norm_num

theorem getGenreMetadata_present (ilstAtom a : Atom) (v : Slice) (n : Nat)
    (h0 : findChildWithType ilstAtom (str "gnre") = .ret a) (hs : a.Size > 0)
    (hv : getMetadataValueFromDataAtom a = .ret v) (hu : Uint16 v = .ret n) :
    getGenreMetadata ilstAtom = .ret
      (if PredefinedGenre (((n + 65535) % 65536 : Nat) : Int) = [] then v.toString
        else PredefinedGenre (((n + 65535) % 65536 : Nat) : Int)) := by
  have hs1 : ¬ a.Size < 1 := by omega
  simp only [getGenreMetadata, h0, Run.ret_bind, hs1, if_false, Run.pure_eq, hs, if_true, hv, hu]

/-- C11: when the child that `findChildWithType(ilst, "gnre")` finds has, after
its 24 header bytes, a payload of at least 2 bytes `p0 p1 ...`, and `c` is the
big-endian 16-bit value of `p0 p1`: for `1 ≤ c ≤ 80` the index `c - 1` has a
predefined name and `getGenreMetadata` returns it; for `c = 0` (the index wraps
to 65535) and for every `c > 80` it returns the raw payload bytes as text. -/
theorem getGenreMetadata_gnre (ilstAtom child : Atom) (h24 : List Byte)
    (p0 p1 : Byte) (tail : List Byte)
    (hfind : findChildWithType ilstAtom (str "gnre") = .ret child)
    (hsize : child.Size > 0)
    (hlen : h24.length = 24)
    (hc : child.Contents.elems = h24 ++ p0 :: p1 :: tail) :
    (1 ≤ p0.val * 256 + p1.val ∧ p0.val * 256 + p1.val ≤ 80 →
      PredefinedGenre ((p0.val * 256 + p1.val : Nat) - 1 : Int) ≠ [] ∧
      getGenreMetadata ilstAtom
        = .ret (PredefinedGenre ((p0.val * 256 + p1.val : Nat) - 1 : Int))) ∧
    (p0.val * 256 + p1.val = 0 ∨ 80 < p0.val * 256 + p1.val →
      PredefinedGenre (((p0.val * 256 + p1.val + 65535) % 65536 : Nat) : Int) = [] ∧
      getGenreMetadata ilstAtom = .ret (p0 :: p1 :: tail)) ∧
    (p0.val * 256 + p1.val = 0 → (p0.val * 256 + p1.val + 65535) % 65536 = 65535) := by
  have hdrop : child.Contents.elems.drop 24 = p0 :: p1 :: tail := by
    rw [hc]; exact List.drop_left' hlen
  have hv := getMetadataValueFromDataAtom_ok child
    (by simp only [Slice.len, hc, List.length_append, hlen, List.length_cons]; omega)
  rw [hdrop] at hv
  have hget := getGenreMetadata_present ilstAtom child _ _ hfind hsize hv
    (Uint16_two p0 p1 tail _)
  have hb0 : p0.val < 256 := p0.isLt
  have hb1 : p1.val < 256 := p1.isLt
  have hc16 : p0.val * 256 + p1.val < 65536 := by omega
  generalize p0.val * 256 + p1.val = c at hget hc16 ⊢
  refine ⟨?_, ?_, ?_⟩
  · intro hr
    have hidx : ((((c + 65535) % 65536 : Nat) : Int)) = ((c : Nat) - 1 : Int) := by omega
    rw [hidx] at hget
    have hne : PredefinedGenre ((c : Nat) - 1 : Int) ≠ [] :=
      (PredefinedGenre_ne_nil_iff _).2 (by omega)
    rw [if_neg hne] at hget
    exact ⟨hne, hget⟩
  · intro hr
    have hnil : PredefinedGenre (((c + 65535) % 65536 : Nat) : Int) = [] := by
      by_contra hne
      have := (PredefinedGenre_ne_nil_iff _).1 hne
      omega
    rw [if_pos hnil] at hget
    exact ⟨hnil, hget⟩
  · intro h0
    omega

theorem getGenreMetadata_gnre_witness :
    getGenreMetadata (ilstGenre 0 9) = .ret (str "Jazz") ∧
    getGenreMetadata (ilstGenre 0 0) = .ret [0, 0] ∧
    getGenreMetadata (ilstGenre 0 81) = .ret [0, 81] :=
  ⟨Eq.trans
      ((getGenreMetadata_gnre (ilstGenre 0 9) (atomGenre 0 9)
        ([0, 0, 0, 26] ++ str "gnre" ++ dataHeader) 0 9 [] (by decide) (by decide)
        (by decide) (by decide)).1 (by decide)).2
      (by decide),
    ((getGenreMetadata_gnre (ilstGenre 0 0) (atomGenre 0 0)
      ([0, 0, 0, 26] ++ str "gnre" ++ dataHeader) 0 0 [] (by decide) (by decide)
      (by decide) (by decide)).2.1 (by decide)).2,
    ((getGenreMetadata_gnre (ilstGenre 0 81) (atomGenre 0 81)
      ([0, 0, 0, 26] ++ str "gnre" ++ dataHeader) 0 81 [] (by decide) (by decide)
      (by decide) (by decide)).2.1 (by decide)).2⟩

/-- C12: the predefined name at index 1, the constant `ClassicRock`, is
`Blues`, not `Classic Rock`: the codes 0 and 1 share a name, and a `gnre`
payload of code 2 decodes to `Blues`. -/
theorem PredefinedGenre_classic_rock_is_blues :
    PredefinedGenre 1 = str "Blues" ∧
    PredefinedGenre 1 ≠ str "Classic Rock" ∧
    PredefinedGenre 0 = PredefinedGenre 1 ∧
    getGenreMetadata (ilstGenre 0 2) = .ret (str "Blues") := by
  decide

/-- C13: with no `gnre` child and a `0xA9 "gen"` child, `getGenreMetadata` panics
when the free-text payload is empty or a single character (`Uint16` indexes the
second byte), and returns the name `Blues` for the 2-byte payload `00 01`; it
returns the payload for the text `Rock`. -/
theorem getGenreMetadata_gen_short_payload :
    findChildWithType (ilstGen (str "R")) (str "gnre") = .ret default ∧
    getGenreMetadata (ilstGen (str "R")) = .panicked ∧
    getGenreMetadata (ilstGen []) = .panicked ∧
    getGenreMetadata (ilstGen [0, 1]) = .ret (str "Blues") ∧
    getGenreMetadata (ilstGen (str "Rock")) = .ret (str "Rock") := by
  decide

/-! ## Auxiliary lemmas: the signature check -/

theorem asciiLower_val (b : Byte) :
    (asciiLower b).val = if 65 ≤ b.val ∧ b.val ≤ 90 then b.val + 32 else b.val := by
  unfold asciiLower
  split_ifs with h
  · show (b.val + 32) % 256 = b.val + 32
    omega
  · rfl

theorem foldEq_iff (sr tr : Byte) (ht : tr.val < 128) :
    foldEq sr tr = true ↔ asciiLower sr = asciiLower tr := by
  have hs := sr.isLt
  rw [Fin.ext_iff, asciiLower_val, asciiLower_val]
  unfold foldEq
  by_cases h128 : sr.val ≥ 128
  · simp only [h128, true_or, if_true, Bool.false_eq_true, false_iff]
    split_ifs <;> omega
  · have hor : ¬ (sr.val ≥ 128 ∨ tr.val ≥ 128) := by omega
    simp only [hor, if_false]
    by_cases heq : tr = sr
    · subst heq
      simp
    · have hne : tr.val ≠ sr.val := fun h => heq (Fin.ext h)
      simp only [heq, if_false, decide_eq_true_eq]
      split_ifs <;> omega

theorem EqualFold_iff : ∀ (s t : GoString), (∀ c ∈ t, c.val < 128) →
    (EqualFold s t = true ↔ s.map asciiLower = t.map asciiLower)
  | [], [], _ => by simp [EqualFold]
  | [], _ :: _, _ => by simp [EqualFold]
  | _ :: _, [], _ => by simp [EqualFold]
  | sr :: s, tr :: t, h => by
    have ih := EqualFold_iff s t (fun c hc => h c (List.mem_cons_of_mem _ hc))
    have h1 := foldEq_iff sr tr (h tr (List.mem_cons_self _ _))
    simp only [EqualFold, Bool.and_eq_true, h1, ih, List.map_cons, List.cons.injEq]

/-- Padding a short read with zero bytes never makes the signature match. -/
theorem padded_signature (got : List Byte) (hl : got.length ≤ 7) :
    (got ++ List.replicate (7 - got.length) 0).map asciiLower = str "ftypm4a"
      ↔ got.map asciiLower = str "ftypm4a" := by
  by_cases h7 : got.length = 7
  · simp [h7]
  · have hk : 7 - got.length = (6 - got.length) + 1 := by omega
    constructor
    · intro h
      exfalso
      have hlast := congrArg List.getLast? h
      rw [hk, List.replicate_succ', ← List.append_assoc, List.map_append] at hlast
      simp only [List.map_cons, List.map_nil, List.getLast?_append, List.getLast?_singleton]
        at hlast
      have h2 : some (asciiLower 0) = List.getLast? (str "ftypm4a") := hlast
      exact absurd h2 (by decide)
    · intro h
      exfalso
      have := congrArg List.length h
      simp only [List.length_map] at this
      exact h7 this

theorem isM4AContainer_iff (f : File) :
    isM4AContainer f = true ↔ ((f.bytes.drop 4).take 7).map asciiLower = str "ftypm4a" := by
  unfold isM4AContainer
  have hl : ((f.bytes.drop 4).take 7).length ≤ 7 := by
    simp only [List.length_take]; omega
  have hsig : (str "ftypM4A").map asciiLower = str "ftypm4a" := by decide
  have hb : str "ftypM4A" = [102, 116, 121, 112, 77, 52, 65] := by decide
  have hascii : ∀ c ∈ str "ftypM4A", c.val < 128 := by
    rw [hb]
    intro c hc
    simp only [List.mem_cons, List.mem_singleton, List.not_mem_nil, or_false] at hc
    rcases hc with h | h | h | h | h | h | h <;> rw [h] <;> decide
  rw [EqualFold_iff _ (str "ftypM4A") hascii, hsig]
  exact padded_signature _ hl

/-! ## Auxiliary lemmas: the top-level parse -/

theorem M4A_not_container (Base Dir : GoString → GoString) (fs : GoString → Option File)
    (fuel : Nat) (path : GoString) (f : File) (hfs : fs path = some f)
    (hsig : isM4AContainer f = false) :
    M4A Base Dir fs fuel path = .ret (default, some .notM4AContainer) := by
  unfold M4A
  simp only [hfs, ne_eq, hsig, Bool.false_eq_true, not_false_eq_true, if_true]

theorem M4A_ftyp_error (Base Dir : GoString → GoString) (fs : GoString → Option File)
    (fuel : Nat) (path : GoString) (f : File) (err : Error) (hfs : fs path = some f)
    (hsig : isM4AContainer f = true) (hftyp : readAtomAt f 0 = .error err) :
    M4A Base Dir fs fuel path = .ret (default, some (.atomError err)) := by
  unfold M4A
  simp only [hfs, ne_eq, hsig, not_true_eq_false, if_false, hftyp]

theorem M4A_sibling_stuck (Base Dir : GoString → GoString) (fs : GoString → Option File)
    (fuel : Nat) (path : GoString) (f : File) (ftyp : Atom) (hfs : fs path = some f)
    (hsig : isM4AContainer f = true) (hftyp : readAtomAt f 0 = .ok ftyp)
    (hmoov : ∀ r, readSiblingWithType f fuel ftyp (str "moov") ≠ .ret r) :
    ∀ x, M4A Base Dir fs fuel path ≠ .ret x := by
  unfold M4A
  simp only [hfs, ne_eq, hsig, not_true_eq_false, if_false, hftyp]
  cases h : readSiblingWithType f fuel ftyp (str "moov") with
  | ret r => exact absurd h (hmoov r)
  | panicked => intro x hx; cases hx
  | unfinished => intro x hx; cases hx

theorem M4A_moov_error (Base Dir : GoString → GoString) (fs : GoString → Option File)
    (fuel : Nat) (path : GoString) (f : File) (ftyp : Atom) (err : Error)
    (hfs : fs path = some f)
    (hsig : isM4AContainer f = true) (hftyp : readAtomAt f 0 = .ok ftyp)
    (hmoov : readSiblingWithType f fuel ftyp (str "moov") = .ret (.error err)) :
    M4A Base Dir fs fuel path = .ret (default, some (.atomError err)) := by
  unfold M4A
  simp only [hfs, ne_eq, hsig, not_true_eq_false, if_false, hftyp, hmoov, Run.ret_bind]

theorem M4A_failedUdta (Base Dir : GoString → GoString) (fs : GoString → Option File)
    (fuel : Nat) (path : GoString) (f : File) (ftyp moov udta : Atom)
    (hfs : fs path = some f)
    (hsig : isM4AContainer f = true) (hftyp : readAtomAt f 0 = .ok ftyp)
    (hmoov : readSiblingWithType f fuel ftyp (str "moov") = .ret (.ok moov))
    (hu : findChildWithType moov (str "udta") = .ret udta) (hu0 : udta.Size = 0) :
    M4A Base Dir fs fuel path = .ret (default, some .failedUdta) := by
  unfold M4A
  simp only [hfs, ne_eq, hsig, not_true_eq_false, if_false, hftyp, hmoov, Run.ret_bind, hu,
    hu0, if_true, Run.pure_eq]

theorem M4A_failedMeta (Base Dir : GoString → GoString) (fs : GoString → Option File)
    (fuel : Nat) (path : GoString) (f : File) (ftyp moov udta metaAtom : Atom)
    (hfs : fs path = some f)
    (hsig : isM4AContainer f = true) (hftyp : readAtomAt f 0 = .ok ftyp)
    (hmoov : readSiblingWithType f fuel ftyp (str "moov") = .ret (.ok moov))
    (hu : findChildWithType moov (str "udta") = .ret udta) (hu0 : ¬ udta.Size = 0)
    (hm : findChildWithType udta (str "meta") = .ret metaAtom) (hm0 : metaAtom.Size = 0) :
    M4A Base Dir fs fuel path = .ret (default, some .failedMeta) := by
  unfold M4A
  simp only [hfs, ne_eq, hsig, not_true_eq_false, if_false, hftyp, hmoov, Run.ret_bind, hu,
    hu0, hm, hm0, if_true, Run.pure_eq]

theorem M4A_failedIlst (Base Dir : GoString → GoString) (fs : GoString → Option File)
    (fuel : Nat) (path : GoString) (f : File) (ftyp moov udta metaAtom ilst : Atom)
    (hfs : fs path = some f)
    (hsig : isM4AContainer f = true) (hftyp : readAtomAt f 0 = .ok ftyp)
    (hmoov : readSiblingWithType f fuel ftyp (str "moov") = .ret (.ok moov))
    (hu : findChildWithType moov (str "udta") = .ret udta) (hu0 : ¬ udta.Size = 0)
    (hm : findChildWithType udta (str "meta") = .ret metaAtom) (hm0 : ¬ metaAtom.Size = 0)
    (hi : findChildWithType metaAtom (str "ilst") = .ret ilst) (hi0 : ilst.Size = 0) :
    M4A Base Dir fs fuel path = .ret (default, some .failedIlst) := by
  unfold M4A
  simp only [hfs, ne_eq, hsig, not_true_eq_false, if_false, hftyp, hmoov, Run.ret_bind, hu,
    hu0, hm, hm0, hi, hi0, if_true, Run.pure_eq]

theorem M4A_parsed (Base Dir : GoString → GoString) (fs : GoString → Option File)
    (fuel : Nat) (path : GoString) (f : File) (ftyp moov udta metaAtom ilst : Atom)
    (hfs : fs path = some f)
    (hsig : isM4AContainer f = true) (hftyp : readAtomAt f 0 = .ok ftyp)
    (hmoov : readSiblingWithType f fuel ftyp (str "moov") = .ret (.ok moov))
    (hu : findChildWithType moov (str "udta") = .ret udta) (hu0 : ¬ udta.Size = 0)
    (hm : findChildWithType udta (str "meta") = .ret metaAtom) (hm0 : ¬ metaAtom.Size = 0)
    (hi : findChildWithType metaAtom (str "ilst") = .ret ilst) (hi0 : ¬ ilst.Size = 0) :
    M4A Base Dir fs fuel path = parse Base Dir ilst path >>= fun m => .ret (m, none) := by
  unfold M4A
  simp only [hfs, ne_eq, hsig, not_true_eq_false, if_false, hftyp, hmoov, Run.ret_bind, hu,
    hu0, hm, hm0, hi, hi0, Run.pure_eq]

/-- The search finds the first atom of the target type after a run of
well-formed atoms of other types. -/
theorem readSiblingWithType_found (f : File) (a : Atom) (t : GoString)
    (pre : List Byte) (skipped : List Box) (target : Box) (post : List Byte) (fuel : Nat)
    (hfile : f.bytes = pre ++ (encodeAll skipped ++ (target.encode ++ post)))
    (hEnd : a.End = pre.length)
    (hwf : ∀ b ∈ skipped, b.wf) (hne : ∀ b ∈ skipped, b.typ ≠ t)
    (hwt : target.wf) (htyp : target.typ = t)
    (hfuel : skipped.length < fuel) :
    readSiblingWithType f fuel a t = .ret (.ok
      { Start := ((pre.length + (encodeAll skipped).length : Nat) : Int)
        End := ((pre.length + (encodeAll skipped).length + target.size : Nat) : Int)
        Size := target.size
        Typ := target.typ
        Contents := Slice.ofBytes target.encode }) := by
  obtain ⟨k, rfl⟩ : ∃ k, fuel = skipped.length + (k + 1) := ⟨fuel - skipped.length - 1, by omega⟩
  obtain ⟨a1, hE1, -, hrun⟩ := readSiblingWithType_run f t skipped pre _ a (k + 1)
    hfile hEnd hwf hne
  have hfile1 : f.bytes = (pre ++ encodeAll skipped) ++ (target.encode ++ post) := by
    rw [hfile, List.append_assoc]
  have hread := readAtomAt_box f (pre ++ encodeAll skipped) post target hwt hfile1
  rw [List.length_append, ← hE1] at hread
  rw [hrun, readSiblingWithType_match f k a1 _ t hread htyp, hE1]
  push_cast
  rfl

/-- With a matching signature `M4A` never returns the not-a-container error. -/
theorem M4A_container_result (Base Dir : GoString → GoString) (fs : GoString → Option File)
    (fuel : Nat) (path : GoString) (f : File) (hfs : fs path = some f)
    (hsig : isM4AContainer f = true) (m : Metadata) :
    M4A Base Dir fs fuel path ≠ .ret (m, some .notM4AContainer) := by
  cases hftyp : readAtomAt f 0 with
  | error err =>
    rw [M4A_ftyp_error Base Dir fs fuel path f err hfs hsig hftyp]
    intro h
    simp at h
  | ok ftyp =>
    cases hm : readSiblingWithType f fuel ftyp (str "moov") with
    | panicked =>
      exact M4A_sibling_stuck Base Dir fs fuel path f ftyp hfs hsig hftyp
        (by rw [hm]; intro r h; cases h) _
    | unfinished =>
      exact M4A_sibling_stuck Base Dir fs fuel path f ftyp hfs hsig hftyp
        (by rw [hm]; intro r h; cases h) _
    | ret r =>
      cases r with
      | error err =>
        rw [M4A_moov_error Base Dir fs fuel path f ftyp err hfs hsig hftyp hm]
        intro h
        simp at h
      | ok moov =>
        obtain ⟨udta, hu⟩ := findChildWithType_returns moov (str "udta")
        by_cases hu0 : udta.Size = 0
        · rw [M4A_failedUdta Base Dir fs fuel path f ftyp moov udta hfs hsig hftyp hm hu hu0]
          intro h
          simp at h
        · obtain ⟨metaAtom, hme⟩ := findChildWithType_returns udta (str "meta")
          by_cases hm0 : metaAtom.Size = 0
          · rw [M4A_failedMeta Base Dir fs fuel path f ftyp moov udta metaAtom hfs hsig hftyp hm
              hu hu0 hme hm0]
            intro h
            simp at h
          · obtain ⟨ilst, hi⟩ := findChildWithType_returns metaAtom (str "ilst")
            by_cases hi0 : ilst.Size = 0
            · rw [M4A_failedIlst Base Dir fs fuel path f ftyp moov udta metaAtom ilst hfs hsig
                hftyp hm hu hu0 hme hm0 hi hi0]
              intro h
              simp at h
            · rw [M4A_parsed Base Dir fs fuel path f ftyp moov udta metaAtom ilst hfs hsig
                hftyp hm hu hu0 hme hm0 hi hi0]
              cases parse Base Dir ilst path with
              | ret m1 => intro h; simp at h
              | panicked => intro h; cases h
              | unfinished => intro h; cases h

/-- C14: for a file that passes the signature check and holds a well-formed
`ftyp` atom, a run of well-formed atoms of other types and a well-formed `moov`
atom: if the children of `moov` are well-formed atoms none of whose types
contains `udta`, `M4A` returns the zero record and the error of the missing
`udta`; and, whatever the bytes of `moov`, when the `udta` lookup, the `meta`
lookup in the `udta` found, or the `ilst` lookup in the `meta` found returns the
zero-size sentinel, `M4A` returns the zero record and the matching error: it
does not panic and does not return a nil error. -/
theorem M4A_missing_container_atoms (Base Dir : GoString → GoString)
    (fs : GoString → Option File) (fuel : Nat) (path : GoString) (f : File)
    (ftypB : Box) (skipped : List Box) (moovB : Box) (post : List Byte)
    (hfs : fs path = some f) (hsig : isM4AContainer f = true)
    (hfile : f.bytes = ftypB.encode ++ (encodeAll skipped ++ (moovB.encode ++ post)))
    (hwf0 : ftypB.wf) (hwf : ∀ b ∈ skipped, b.wf) (hwfm : moovB.wf)
    (hne : ∀ b ∈ skipped, b.typ ≠ str "moov") (hmoov : moovB.typ = str "moov")
    (hfuel : skipped.length < fuel) :
    (∀ children : List Box, moovB.body = encodeAll children → (∀ b ∈ children, b.wf) →
      (∀ b ∈ children, Contains b.typ (str "udta") = false) →
      M4A Base Dir fs fuel path = .ret (default, some .failedUdta)) ∧
    (∃ udta, findChildWithType
        { Start := ((ftypB.encode.length + (encodeAll skipped).length : Nat) : Int)
          End := ((ftypB.encode.length + (encodeAll skipped).length + moovB.size : Nat) : Int)
          Size := moovB.size
          Typ := moovB.typ
          Contents := Slice.ofBytes moovB.encode } (str "udta") = .ret udta ∧
      (udta.Size = 0 → M4A Base Dir fs fuel path = .ret (default, some .failedUdta)) ∧
      (udta.Size ≠ 0 →
        ∃ metaAtom, findChildWithType udta (str "meta") = .ret metaAtom ∧
          (metaAtom.Size = 0 →
            M4A Base Dir fs fuel path = .ret (default, some .failedMeta)) ∧
          (metaAtom.Size ≠ 0 →
            ∃ ilst, findChildWithType metaAtom (str "ilst") = .ret ilst ∧
              (ilst.Size = 0 →
                M4A Base Dir fs fuel path = .ret (default, some .failedIlst))))) := by
  have hftyp0 := readAtomAt_box f [] _ ftypB hwf0 (by rw [List.nil_append]; exact hfile)
  obtain ⟨ftyp, hftyp, hEnd⟩ : ∃ ftyp, readAtomAt f 0 = .ok ftyp ∧
      ftyp.End = (ftypB.encode.length : Int) :=
    ⟨_, hftyp0, by
      show ((([] : List Byte).length : Int)) + (ftypB.size : Int) = (ftypB.encode.length : Int)
      rw [Box.encode_length ftypB hwf0, List.length_nil]
      push_cast
      omega⟩
  have hm := readSiblingWithType_found f ftyp (str "moov") ftypB.encode skipped moovB post fuel
    hfile hEnd hwf hne hwfm hmoov hfuel
  obtain ⟨udta, hu⟩ := findChildWithType_returns
    { Start := ((ftypB.encode.length + (encodeAll skipped).length : Nat) : Int)
      End := ((ftypB.encode.length + (encodeAll skipped).length + moovB.size : Nat) : Int)
      Size := moovB.size
      Typ := moovB.typ
      Contents := Slice.ofBytes moovB.encode } (str "udta")
  refine ⟨?_, udta, hu, ?_, ?_⟩
  · intro children hbody hwfc hnone
    have habs := findChildWithType_absent
      { Start := ((ftypB.encode.length + (encodeAll skipped).length : Nat) : Int)
        End := ((ftypB.encode.length + (encodeAll skipped).length + moovB.size : Nat) : Int)
        Size := moovB.size
        Typ := moovB.typ
        Contents := Slice.ofBytes moovB.encode } (str "udta") (be32 moovB.size ++ moovB.typ)
      children (by rw [List.length_append, be32_length, hwfm.1])
      (by
        show moovB.encode = _
        rw [Box.encode, hbody, List.append_assoc])
      hwfc hnone
    exact M4A_failedUdta Base Dir fs fuel path f _ _ default hfs hsig hftyp hm habs rfl
  · intro hu0
    exact M4A_failedUdta Base Dir fs fuel path f _ _ udta hfs hsig hftyp hm hu hu0
  · intro hu0
    obtain ⟨metaAtom, hme⟩ := findChildWithType_returns udta (str "meta")
    refine ⟨metaAtom, hme, ?_, ?_⟩
    · intro hm0
      exact M4A_failedMeta Base Dir fs fuel path f _ _ udta metaAtom hfs hsig hftyp hm hu hu0
        hme hm0
    · intro hm0
      obtain ⟨ilst, hi⟩ := findChildWithType_returns metaAtom (str "ilst")
      refine ⟨ilst, hi, ?_⟩
      intro hi0
      exact M4A_failedIlst Base Dir fs fuel path f _ _ udta metaAtom ilst hfs hsig hftyp hm hu
        hu0 hme hm0 hi hi0

theorem M4A_missing_container_atoms_witness :
    M4A id id (fun _ => some fileNoUdta) 1 (str "song.m4a")
      = .ret (default, some .failedUdta) :=
  (M4A_missing_container_atoms id id (fun _ => some fileNoUdta) 1 (str "song.m4a") fileNoUdta
    ⟨str "ftyp", str "M4A " ++ [0, 0, 0, 0]⟩ [] ⟨str "moov", [0, 0, 0, 8] ++ str "free"⟩ []
    rfl (by decide) (by decide) (by decide) (by decide) (by decide) (by decide) (by decide)
    (by decide)).1 [⟨str "free", []⟩] (by decide) (by decide) (by decide)

/-- C15: for the file found at the path, `M4A` returns the not-an-M4A-container
error, for every iteration budget (the sibling loop is not entered), exactly
when the 7 bytes at offsets 4 to 10, put in lower case, are not `ftypm4a`; a
file of fewer than 11 bytes is rejected; and `isM4AContainer` is a boolean that
is true exactly when they are. -/
theorem M4A_signature_check (Base Dir : GoString → GoString) (fs : GoString → Option File)
    (fuel : Nat) (path : GoString) (f : File) (hfs : fs path = some f) :
    (M4A Base Dir fs fuel path = .ret (default, some .notM4AContainer)
      ↔ ((f.bytes.drop 4).take 7).map asciiLower ≠ str "ftypm4a") ∧
    (f.bytes.length < 11 →
      M4A Base Dir fs fuel path = .ret (default, some .notM4AContainer)) ∧
    (isM4AContainer f = true ↔ ((f.bytes.drop 4).take 7).map asciiLower = str "ftypm4a") := by
  have hiff := isM4AContainer_iff f
  have hno : ((f.bytes.drop 4).take 7).map asciiLower ≠ str "ftypm4a" →
      M4A Base Dir fs fuel path = .ret (default, some .notM4AContainer) := by
    intro h
    have hsig : isM4AContainer f = false := by
      cases hb : isM4AContainer f with
      | false => rfl
      | true => exact absurd (hiff.1 hb) h
    exact M4A_not_container Base Dir fs fuel path f hfs hsig
  refine ⟨⟨?_, hno⟩, ?_, hiff⟩
  · intro h hsig
    exact M4A_container_result Base Dir fs fuel path f hfs (hiff.2 hsig) default h
  · intro hlen
    apply hno
    intro h
    have := congrArg List.length h
    simp only [List.length_map, List.length_take, List.length_drop] at this
    have h7 : (str "ftypm4a").length = 7 := rfl
    omega

theorem M4A_signature_check_witness :
    M4A id id (fun _ => some fileOtherBrand) 0 (str "song.m4a")
      = .ret (default, some .notM4AContainer) ∧
    isM4AContainer fileNoUdta = true :=
  ⟨(M4A_signature_check id id (fun _ => some fileOtherBrand) 0 (str "song.m4a")
      fileOtherBrand rfl).1.2 (by decide),
    (M4A_signature_check id id (fun _ => some fileNoUdta) 0 (str "song.m4a")
      fileNoUdta rfl).2.2.2 (by decide)⟩

/-- C16: `PredefinedGenre` is defined on every integer; its result is non-empty
exactly for the codes 0 to 79 and empty for every other integer, negative or
at least 80; code 0 is `Blues` and code 9 is `Metal`. -/
theorem PredefinedGenre_total (pg : Int) :
    (PredefinedGenre pg ≠ [] ↔ 0 ≤ pg ∧ pg ≤ 79) ∧
    (pg < 0 ∨ 80 ≤ pg → PredefinedGenre pg = []) ∧
    PredefinedGenre 0 = str "Blues" ∧
    PredefinedGenre 9 = str "Metal" := by
  refine ⟨PredefinedGenre_ne_nil_iff pg, ?_, by decide, by decide⟩
  intro h
  by_contra hne
  have := (PredefinedGenre_ne_nil_iff pg).1 hne
  omega

/-- C19: `getMetadataValueFromDataAtom` returns `Contents[24:]`, the bytes after
the first 24, whatever these are, when the contents have at least 24 bytes; it
returns a value exactly in that case, and panics otherwise. -/
theorem getMetadataValueFromDataAtom_payload (a : Atom) :
    (∀ h24 payload : List Byte, a.Contents.elems = h24 ++ payload → h24.length = 24 →
      getMetadataValueFromDataAtom a = .ret ⟨payload, a.Contents.spare⟩) ∧
    (24 ≤ a.Contents.len →
      getMetadataValueFromDataAtom a = .ret ⟨a.Contents.elems.drop 24, a.Contents.spare⟩) ∧
    ((∃ v, getMetadataValueFromDataAtom a = .ret v) ↔ 24 ≤ a.Contents.len) ∧
    (a.Contents.len < 24 → getMetadataValueFromDataAtom a = .panicked) := by
  refine ⟨?_, getMetadataValueFromDataAtom_ok a, ?_, getMetadataValueFromDataAtom_short a⟩
  · intro h24 payload hc hlen
    have h := getMetadataValueFromDataAtom_ok a
      (by simp only [Slice.len, hc, List.length_append, hlen]; omega)
    rw [h, hc, List.drop_left' hlen]
  · constructor
    · rintro ⟨v, hv⟩
      by_contra hlt
      rw [getMetadataValueFromDataAtom_short a (by omega)] at hv
      cases hv
    · intro h
      exact ⟨_, getMetadataValueFromDataAtom_ok a h⟩

theorem Contains_four_three (a b c d x y z : Byte) :
    Contains [a, b, c, d] [x, y, z] = true ↔ ([a, b, c] = [x, y, z] ∨ [b, c, d] = [x, y, z]) := by
  simp only [Contains, startsWith, Bool.or_eq_true, Bool.and_eq_true, decide_eq_true_eq,
    List.cons.injEq, and_true, Bool.and_false, Bool.false_eq_true, or_false, Bool.and_true,
    and_false, reduceCtorEq]

theorem Box.encode_drop_header (typ sub P : List Byte) (ht : typ.length = 4)
    (hs : sub.length = 16) : (Box.encode ⟨typ, sub ++ P⟩).drop 24 = P := by
  have h24 : (be32 (Box.size ⟨typ, sub ++ P⟩) ++ typ ++ sub).length = 24 := by
    simp only [List.length_append, be32_length, ht, hs]
  have he : Box.encode ⟨typ, sub ++ P⟩ = (be32 (Box.size ⟨typ, sub ++ P⟩) ++ typ ++ sub) ++ P := by
    simp only [Box.encode, List.append_assoc]
  rw [he]
  exact List.drop_left' h24

/-- C20: in an `ilst` of well-formed children where a child of type `aART` with
payload `P` comes before the child of type `0xA9 "ART"` with payload `Q` (and
no earlier child has a type containing `ART`), `getArtistMetadata` returns `P`;
and a 4-byte type contains a 3-byte target exactly when its first three or its
last three bytes are the target. -/
theorem getArtistMetadata_first_match (ilstAtom : Atom) (hdr : List Byte)
    (pre mid post : List Box) (subP P subQ Q : List Byte)
    (hh : hdr.length = 8) (hsP : subP.length = 16) (_hsQ : subQ.length = 16)
    (hc : ilstAtom.Contents.elems = hdr ++ encodeAll
      (pre ++ ⟨str "aART", subP ++ P⟩ :: (mid ++ ⟨0xA9 :: str "ART", subQ ++ Q⟩ :: post)))
    (hwf : ∀ b ∈ pre ++ ⟨str "aART", subP ++ P⟩
      :: (mid ++ ⟨0xA9 :: str "ART", subQ ++ Q⟩ :: post), b.wf)
    (hpre : ∀ b ∈ pre, Contains b.typ (str "ART") = false) :
    getArtistMetadata ilstAtom = .ret P ∧
    (∀ a b c d x y z : Byte, Contains [a, b, c, d] [x, y, z] = true
      ↔ ([a, b, c] = [x, y, z] ∨ [b, c, d] = [x, y, z])) := by
  refine ⟨?_, Contains_four_three⟩
  have hwfb : (⟨str "aART", subP ++ P⟩ : Box).wf :=
    hwf _ (List.mem_append_right _ (List.mem_cons_self _ _))
  have hlenE := Box.encode_length _ hwfb
  have hsize : 24 ≤ (⟨str "aART", subP ++ P⟩ : Box).size := by
    simp only [Box.size, List.length_append, hsP]; omega
  have hfound := findChildWithType_found ilstAtom (str "ART") hdr pre
    ⟨str "aART", subP ++ P⟩ (mid ++ ⟨0xA9 :: str "ART", subQ ++ Q⟩ :: post) hh hc hwf hpre
    (by show Contains (str "aART") (str "ART") = true; decide)
  have hval := getMetadataValueFromDataAtom_ok
    { Start := int64 (ilstAtom.Start + ((8 + (encodeAll pre).length : Nat) : Int))
      End := int64 (int64 (ilstAtom.Start + ((8 + (encodeAll pre).length : Nat) : Int))
        + ((⟨str "aART", subP ++ P⟩ : Box).size : Int))
      Size := (⟨str "aART", subP ++ P⟩ : Box).size
      Typ := str "aART"
      Contents := ⟨(⟨str "aART", subP ++ P⟩ : Box).encode,
        encodeAll (mid ++ ⟨0xA9 :: str "ART", subQ ++ Q⟩ :: post)
          ++ ilstAtom.Contents.spare⟩ }
    (by simp only [Slice.len, hlenE]; omega)
  rw [getArtistMetadata_present ilstAtom _ _ hfound
    (by show ((⟨str "aART", subP ++ P⟩ : Box).size : Int) > 0; omega) hval]
  have hdrop := Box.encode_drop_header (str "aART") subP P rfl hsP
  simp only [Run.ret_bind, Slice.toString, hdrop]

theorem getArtistMetadata_first_match_witness :
    getArtistMetadata ilstArtists = .ret (str "Various") ∧ str "Various" ≠ str "Solo" :=
  ⟨(getArtistMetadata_first_match ilstArtists ([0, 0, 0, 70] ++ str "ilst") [] [] []
      dataHeader (str "Various") dataHeader (str "Solo")
      (by decide) (by decide) (by decide) (by decide) (by decide) (by decide)).1,
    by decide⟩

/-! ## Auxiliary lemmas: every step of the child scan -/

/-- What `parseAtom` returns on a buffer of at least 8 bytes, in terms of the
size field, the big-endian value of the first 4 bytes. -/
theorem parseAtom_decoded (b : Slice) (off : Int) (h8 : 8 ≤ b.len) :
    (beValue (b.elems.take 4) ≤ b.len → parseAtom b off = .ret
      { Start := off
        End := int64 (off + (beValue (b.elems.take 4) : Int))
        Size := beValue (b.elems.take 4)
        Typ := (b.elems.drop 4).take 4
        Contents := ⟨b.elems.take (beValue (b.elems.take 4)),
          b.elems.drop (beValue (b.elems.take 4)) ++ b.spare⟩ }) ∧
    (¬ beValue (b.elems.take 4) ≤ b.len → parseAtom b off = .ret default) := by
  have h8e : 8 ≤ b.elems.length := h8
  have hcap : b.len ≤ b.cap := by simp [Slice.len, Slice.cap]
  have h4 := Slice.slice_ok b 0 4 (by omega) (by omega)
  rw [List.drop_zero, List.take_append_of_le_length (by omega)] at h4
  have hl4 : (b.elems.take 4).length = 4 := by
    rw [List.length_take]; omega
  have hps := parseSize_eq_beValue (b.elems.take 4)
    (by intro h; rw [h] at hl4; cases hl4) (by omega)
  generalize beValue (b.elems.take 4) = n at hps ⊢
  constructor
  · intro hle
    have hle1 : n ≤ b.elems.length := hle
    have h48 := Slice.slice_ok b 4 8 (by omega) (by omega)
    rw [List.take_append_of_le_length (by omega), List.drop_take] at h48
    have hc := Slice.slice_ok b 0 n (by omega) (by omega)
    rw [List.drop_zero, List.take_append_of_le_length hle1,
      List.drop_append_of_le_length hle1] at hc
    exact parseAtom_of_steps b _ _ _ off n h8 h4 hps (by exact_mod_cast hle) h48 hc
  · intro hgt
    exact parseAtom_oversize b _ off n h8 h4 hps (by exact_mod_cast hgt)

/-- One iteration of the loop of `findChildWithType` at an index inside the
contents: with `n` the size field at the index, the iteration returns the
decoded child or moves the index by `n` when at least 8 bytes remain and
`0 < n` fits in them, and moves it by 4 otherwise. -/
theorem findChildWithTypeLoop_step (parent : Atom) (t : GoString) (fuel i : Nat)
    (hi : i < parent.Contents.len) :
    (8 ≤ parent.Contents.len - i ∧
      beValue ((parent.Contents.elems.drop i).take 4) ≤ parent.Contents.len - i ∧
      beValue ((parent.Contents.elems.drop i).take 4) ≠ 0 →
      (Contains ((parent.Contents.elems.drop (i + 4)).take 4) t = true →
        findChildWithTypeLoop parent t (fuel + 1) i = .ret
          { Start := int64 (parent.Start + (i : Int))
            End := int64 (int64 (parent.Start + (i : Int))
              + (beValue ((parent.Contents.elems.drop i).take 4) : Int))
            Size := beValue ((parent.Contents.elems.drop i).take 4)
            Typ := (parent.Contents.elems.drop (i + 4)).take 4
            Contents := ⟨(parent.Contents.elems.drop i).take
                (beValue ((parent.Contents.elems.drop i).take 4)),
              (parent.Contents.elems.drop i).drop
                (beValue ((parent.Contents.elems.drop i).take 4)) ++ parent.Contents.spare⟩ }) ∧
      (Contains ((parent.Contents.elems.drop (i + 4)).take 4) t = false →
        findChildWithTypeLoop parent t (fuel + 1) i
          = findChildWithTypeLoop parent t fuel
              ((i + beValue ((parent.Contents.elems.drop i).take 4) : Nat) : Int))) ∧
    (¬ (8 ≤ parent.Contents.len - i ∧
        beValue ((parent.Contents.elems.drop i).take 4) ≤ parent.Contents.len - i ∧
        beValue ((parent.Contents.elems.drop i).take 4) ≠ 0) →
      findChildWithTypeLoop parent t (fuel + 1) i
        = findChildWithTypeLoop parent t fuel ((i + 4 : Nat) : Int)) := by
  have hs := Slice.sliceFrom_ok parent.Contents i (by omega)
  have hlt : (i : Int) < parent.Contents.len := by exact_mod_cast hi
  have hrl : (⟨parent.Contents.elems.drop i, parent.Contents.spare⟩ : Slice).len
      = parent.Contents.len - i := by
    simp only [Slice.len, List.length_drop]
  have htyp : ((parent.Contents.elems.drop i).drop 4).take 4
      = (parent.Contents.elems.drop (i + 4)).take 4 := by
    rw [List.drop_drop]
  constructor
  · rintro ⟨h8, hle, hne⟩
    have hp := (parseAtom_decoded ⟨parent.Contents.elems.drop i, parent.Contents.spare⟩
      (int64 (parent.Start + (i : Int))) (by rw [hrl]; exact h8)).1 (by rw [hrl]; exact hle)
    simp only [htyp] at hp
    have hne1 : ((beValue ((parent.Contents.elems.drop i).take 4) : Nat) : Int) ≠ 0 := by
      exact_mod_cast hne
    constructor
    · intro hc
      exact findChildWithTypeLoop_found parent t fuel i _ _ hlt hs hp
        hne1 hc
    · intro hc
      rw [findChildWithTypeLoop_next parent t fuel i _ _ hlt hs hp
        hne1 hc]
      push_cast
      rfl
  · intro hnot
    have hres : ∃ child, parseAtom ⟨parent.Contents.elems.drop i, parent.Contents.spare⟩
        (int64 (parent.Start + (i : Int))) = .ret child ∧ child.Size = 0 := by
      by_cases h8 : 8 ≤ parent.Contents.len - i
      · have hd := parseAtom_decoded ⟨parent.Contents.elems.drop i, parent.Contents.spare⟩
          (int64 (parent.Start + (i : Int))) (by rw [hrl]; exact h8)
        by_cases hle : beValue ((parent.Contents.elems.drop i).take 4) ≤ parent.Contents.len - i
        · have hz : beValue ((parent.Contents.elems.drop i).take 4) = 0 := by
            by_contra hne
            exact hnot ⟨h8, hle, hne⟩
          exact ⟨_, hd.1 (by rw [hrl]; exact hle), by
            show ((beValue ((parent.Contents.elems.drop i).take 4) : Nat) : Int) = 0
            rw [hz]; rfl⟩
        · exact ⟨default, hd.2 (by rw [hrl]; exact hle), rfl⟩
      · exact ⟨default, parseAtom_short _ _ (by
          show ¬ (⟨parent.Contents.elems.drop i, parent.Contents.spare⟩ : Slice).len ≥ 8
          rw [hrl]; omega), rfl⟩
    obtain ⟨child, hp, hz⟩ := hres
    rw [findChildWithTypeLoop_resync parent t fuel i _ _ hlt hs hp hz]
    push_cast
    rfl

/-- More iterations than needed do not change what the loop returns. -/
theorem findChildWithTypeLoop_mono (parent : Atom) (t : GoString) :
    ∀ (fuel i : Nat) (a : Atom), findChildWithTypeLoop parent t fuel (i : Int) = .ret a →
      ∀ k, findChildWithTypeLoop parent t (fuel + k) (i : Int) = .ret a := by
  intro fuel
  induction fuel with
  | zero =>
    intro i a h k
    by_cases hi : (i : Int) < parent.Contents.len
    · simp only [findChildWithTypeLoop, hi, if_true] at h
      cases h
    · rw [findChildWithTypeLoop_exit parent t _ _ hi] at h
      rw [findChildWithTypeLoop_exit parent t _ _ hi]
      exact h
  | succ fuel ih =>
    intro i a h k
    by_cases hi : i < parent.Contents.len
    · have h1 := findChildWithTypeLoop_step parent t fuel i hi
      have h2 := findChildWithTypeLoop_step parent t (fuel + k) i hi
      rw [Nat.add_right_comm]
      by_cases hcond : 8 ≤ parent.Contents.len - i ∧
          beValue ((parent.Contents.elems.drop i).take 4) ≤ parent.Contents.len - i ∧
          beValue ((parent.Contents.elems.drop i).take 4) ≠ 0
      · by_cases hc : Contains ((parent.Contents.elems.drop (i + 4)).take 4) t = true
        · rw [(h1.1 hcond).1 hc] at h
          rw [(h2.1 hcond).1 hc]
          exact h
        · have hc1 : Contains ((parent.Contents.elems.drop (i + 4)).take 4) t = false := by
            simpa using hc
          rw [(h1.1 hcond).2 hc1] at h
          rw [(h2.1 hcond).2 hc1]
          exact ih _ a h k
      · rw [h1.2 hcond] at h
        rw [h2.2 hcond]
        exact ih _ a h k
    · have hi1 : ¬ (i : Int) < parent.Contents.len := by exact_mod_cast hi
      rw [findChildWithTypeLoop_exit parent t _ _ hi1] at h
      rw [findChildWithTypeLoop_exit parent t _ _ hi1]
      exact h

/-- C17: on any parent and target, the loop of `findChildWithType` started at
index 8 returns an atom (no panic) within `len(Contents) - 8` iterations, and
that atom is the result of `findChildWithType`; and at every index `i` inside
the contents, with `n` the size field decoded at `i`, one iteration either
returns the child decoded there or moves the index forward: by `n` when at
least 8 bytes remain and `n` is non-zero and fits in them, by 4 otherwise. -/
theorem findChildWithType_total (parent : Atom) (t : GoString) :
    (∃ a, findChildWithTypeLoop parent t (parent.Contents.len - 8) 8 = .ret a ∧
      findChildWithType parent t = .ret a) ∧
    (∀ fuel i : Nat, i < parent.Contents.len →
      (8 ≤ parent.Contents.len - i ∧
        beValue ((parent.Contents.elems.drop i).take 4) ≤ parent.Contents.len - i ∧
        beValue ((parent.Contents.elems.drop i).take 4) ≠ 0 →
        i < i + beValue ((parent.Contents.elems.drop i).take 4) ∧
        (Contains ((parent.Contents.elems.drop (i + 4)).take 4) t = true →
          ∃ child, findChildWithTypeLoop parent t (fuel + 1) i = .ret child ∧
            child.Size = beValue ((parent.Contents.elems.drop i).take 4) ∧
            child.Typ = (parent.Contents.elems.drop (i + 4)).take 4) ∧
        (Contains ((parent.Contents.elems.drop (i + 4)).take 4) t = false →
          findChildWithTypeLoop parent t (fuel + 1) i
            = findChildWithTypeLoop parent t fuel
                ((i + beValue ((parent.Contents.elems.drop i).take 4) : Nat) : Int))) ∧
      (¬ (8 ≤ parent.Contents.len - i ∧
          beValue ((parent.Contents.elems.drop i).take 4) ≤ parent.Contents.len - i ∧
          beValue ((parent.Contents.elems.drop i).take 4) ≠ 0) →
        findChildWithTypeLoop parent t (fuel + 1) i
          = findChildWithTypeLoop parent t fuel ((i + 4 : Nat) : Int))) := by
  constructor
  · obtain ⟨a, ha⟩ := findChildWithTypeLoop_returns parent t (parent.Contents.len - 8) 8
      (by omega) (by omega)
    refine ⟨a, ha, ?_⟩
    have hm := findChildWithTypeLoop_mono parent t (parent.Contents.len - 8) 8 a ha
      (min parent.Contents.len 8)
    have hfuel : parent.Contents.len - 8 + min parent.Contents.len 8 = parent.Contents.len := by
      omega
    rw [hfuel] at hm
    exact hm
  · intro fuel i hi
    have hstep := findChildWithTypeLoop_step parent t fuel i hi
    refine ⟨?_, hstep.2⟩
    intro hcond
    refine ⟨by omega, ?_, (hstep.1 hcond).2⟩
    intro hc
    exact ⟨_, (hstep.1 hcond).1 hc, rfl, rfl⟩

theorem findChildWithType_total_witness :
    findChildWithTypeLoop atomMalformed (str "nam") (27 - 8) 8 = .ret default ∧
    findChildWithType atomMalformed (str "nam") = .ret default := by
  obtain ⟨a, h1, h2⟩ := (findChildWithType_total atomMalformed (str "nam")).1
  have h3 : findChildWithType atomMalformed (str "nam") = .ret default := by decide
  rw [h3] at h2
  cases h2
  exact ⟨h1, h3⟩

/-- A non-sentinel atom returned by the loop is the child decoded at some index
`j` at or after the start index, where at least 8 bytes remain and the size
field is non-zero and fits. -/
theorem findChildWithTypeLoop_result (parent : Atom) (t : GoString) :
    ∀ (fuel i : Nat) (c : Atom), findChildWithTypeLoop parent t fuel (i : Int) = .ret c →
      c.Size ≠ 0 →
      ∃ j : Nat, i ≤ j ∧ j < parent.Contents.len ∧ 8 ≤ parent.Contents.len - j ∧
        beValue ((parent.Contents.elems.drop j).take 4) ≤ parent.Contents.len - j ∧
        beValue ((parent.Contents.elems.drop j).take 4) ≠ 0 ∧
        c = { Start := int64 (parent.Start + (j : Int))
              End := int64 (int64 (parent.Start + (j : Int))
                + (beValue ((parent.Contents.elems.drop j).take 4) : Int))
              Size := beValue ((parent.Contents.elems.drop j).take 4)
              Typ := (parent.Contents.elems.drop (j + 4)).take 4
              Contents := ⟨(parent.Contents.elems.drop j).take
                  (beValue ((parent.Contents.elems.drop j).take 4)),
                (parent.Contents.elems.drop j).drop
                  (beValue ((parent.Contents.elems.drop j).take 4))
                  ++ parent.Contents.spare⟩ } := by
  intro fuel
  induction fuel with
  | zero =>
    intro i c h hc
    by_cases hi : (i : Int) < parent.Contents.len
    · simp only [findChildWithTypeLoop, hi, if_true] at h
      cases h
    · rw [findChildWithTypeLoop_exit parent t _ _ hi] at h
      cases h
      exact absurd rfl hc
  | succ fuel ih =>
    intro i c h hc
    by_cases hi : i < parent.Contents.len
    · have h1 := findChildWithTypeLoop_step parent t fuel i hi
      by_cases hcond : 8 ≤ parent.Contents.len - i ∧
          beValue ((parent.Contents.elems.drop i).take 4) ≤ parent.Contents.len - i ∧
          beValue ((parent.Contents.elems.drop i).take 4) ≠ 0
      · by_cases hcn : Contains ((parent.Contents.elems.drop (i + 4)).take 4) t = true
        · rw [(h1.1 hcond).1 hcn] at h
          cases h
          exact ⟨i, le_refl i, hi, hcond.1, hcond.2.1, hcond.2.2, rfl⟩
        · have hc1 : Contains ((parent.Contents.elems.drop (i + 4)).take 4) t = false := by
            simpa using hcn
          rw [(h1.1 hcond).2 hc1] at h
          obtain ⟨j, hij, hrest⟩ := ih _ c h hc
          exact ⟨j, by omega, hrest⟩
      · rw [h1.2 hcond] at h
        obtain ⟨j, hij, hrest⟩ := ih _ c h hc
        exact ⟨j, by omega, hrest⟩
    · have hi1 : ¬ (i : Int) < parent.Contents.len := by exact_mod_cast hi
      rw [findChildWithTypeLoop_exit parent t _ _ hi1] at h
      cases h
      exact absurd rfl hc

/-- C18, as the code has it: for a parent with `Size == len(Contents)` and
`End == Start + Size` (fields within `int64`), every atom `c` of non-zero size
returned by `findChildWithType` has `c.End - c.Start == c.Size ==
len(c.Contents)`, `c.Size` equal to the big-endian size field in
`c.Contents[0:4]`, `c.Size >= 1`, `parent.Start + 8 <= c.Start`,
`c.End <= parent.End`, and `c.Contents` equal to
`parent.Contents[c.Start - parent.Start : c.End - parent.Start]`. -/
theorem findChildWithType_child_invariants (parent : Atom) (t : GoString) (c : Atom)
    (hS : parent.Size = parent.Contents.len) (hE : parent.End = parent.Start + parent.Size)
    (hlo : -(2 ^ 63) ≤ parent.Start) (hhi : parent.End < 2 ^ 63)
    (hfind : findChildWithType parent t = .ret c) (hc : c.Size ≠ 0) :
    c.End - c.Start = c.Size ∧
    c.Size = c.Contents.len ∧
    (∃ s4, c.Contents.slice 0 4 = .ret s4 ∧ parseSize s4.elems = .ok c.Size) ∧
    1 ≤ c.Size ∧
    parent.Start + 8 ≤ c.Start ∧
    c.End ≤ parent.End ∧
    parent.Contents.slice (c.Start - parent.Start) (c.End - parent.Start) = .ret c.Contents := by
  unfold findChildWithType at hfind
  obtain ⟨j, h8j, hj, h8, hle, hne, rfl⟩ :=
    findChildWithTypeLoop_result parent t _ (SizeLen + TypeLen) c hfind hc
  have h8j1 : 8 ≤ j := h8j
  have hlen : parent.Contents.elems.length = parent.Contents.len := rfl
  generalize hn : beValue ((parent.Contents.elems.drop j).take 4) = n at hle hne ⊢
  have hst : int64 (parent.Start + (j : Int)) = parent.Start + (j : Int) := by
    rw [int64_eq_self] <;> omega
  have hen : int64 (parent.Start + (j : Int) + (n : Int)) = parent.Start + (j : Int) + (n : Int) := by
    rw [int64_eq_self] <;> omega
  simp only [hst, hen]
  have hjn : j + n ≤ parent.Contents.elems.length := by omega
  have hcap : parent.Contents.len ≤ parent.Contents.cap := by simp [Slice.len, Slice.cap]
  refine ⟨by omega, ?_, ?_, by omega, by omega, by omega, ?_⟩
  · simp only [Slice.len, List.length_take, List.length_drop]
    omega
  · have hall : (parent.Contents.elems.drop j).take n
        ++ ((parent.Contents.elems.drop j).drop n ++ parent.Contents.spare)
        = parent.Contents.elems.drop j ++ parent.Contents.spare := by
      rw [← List.append_assoc, List.take_append_drop]
    have h4 := Slice.slice_ok
      ⟨(parent.Contents.elems.drop j).take n,
        (parent.Contents.elems.drop j).drop n ++ parent.Contents.spare⟩ 0 4 (by omega)
      (by
        simp only [Slice.cap, List.length_take, List.length_drop, List.length_append]
        omega)
    simp only [hall, List.drop_zero] at h4
    rw [List.take_append_of_le_length (by rw [List.length_drop]; omega)] at h4
    refine ⟨_, h4, ?_⟩
    show parseSize ((parent.Contents.elems.drop j).take 4) = .ok (n : Int)
    have hl4 : ((parent.Contents.elems.drop j).take 4).length = 4 := by
      rw [List.length_take, List.length_drop]; omega
    rw [parseSize_eq_beValue _ (by intro h; rw [h] at hl4; cases hl4) (by omega), hn]
  · have hsl := Slice.slice_ok parent.Contents j (j + n) (by omega)
      (by simp only [Slice.len] at hcap; simp only [Slice.cap] at hcap ⊢; omega)
    rw [List.take_append_of_le_length hjn, List.drop_take,
      List.drop_append_of_le_length hjn, Nat.add_sub_cancel_left] at hsl
    have e1 : parent.Start + (j : Int) - parent.Start = ((j : Nat) : Int) := by omega
    have e2 : parent.Start + (j : Int) + (n : Int) - parent.Start = ((j + n : Nat) : Int) := by
      push_cast; omega
    rw [e1, e2, hsl, List.drop_drop]

theorem findChildWithType_child_invariants_witness :
    ilstTwo.Contents.slice 16 40 = .ret
      (Slice.ofBytes ([0, 0, 0, 24] ++ (0xA9 :: str "nam") ++ List.replicate 16 0)) :=
  (findChildWithType_child_invariants ilstTwo (str "nam")
    { Start := 116, End := 140, Size := 24, Typ := 0xA9 :: str "nam",
      Contents := Slice.ofBytes ([0, 0, 0, 24] ++ (0xA9 :: str "nam") ++ List.replicate 16 0) }
    (by decide) (by decide) (by decide) (by decide) (by decide) (by decide)).2.2.2.2.2.2

/-- A returned child smaller than its own header: the parent `atomUndersized`
has `Size == len(Contents)` and `End == Start + Size`, and `findChildWithType`
returns for `nam` a child of non-zero size 3, which is not at least 8. -/
theorem findChildWithType_child_size_below_header :
    atomUndersized.Size = atomUndersized.Contents.len ∧
    atomUndersized.End = atomUndersized.Start + atomUndersized.Size ∧
    ∃ c, findChildWithType atomUndersized (str "nam") = .ret c ∧
      c ≠ default ∧ c.Size = 3 ∧ c.Typ = str "name" ∧ ¬ c.Size ≥ 8 :=
  ⟨by decide, by decide,
    { Start := 8, End := 11, Size := 3, Typ := str "name",
      Contents := ⟨[0, 0, 0], 3 :: str "name"⟩ },
    by decide, by decide, rfl, rfl, by decide⟩

end M4A
